import Mathlib

/-!
Verification of the `bstmap` crate (a map backed by an unbalanced binary
search tree).  The definitions below are a shallow embedding of
`src/node.rs`, `src/lib.rs`, `src/iter.rs` and `src/action.rs`:

* `NodeLink` embeds `NodeLink<T, V> = Option<Box<Node<T, V>>>` together with
  `Node<T, V>` (`.none` is `Option::None`, `.node` is a boxed `Node`).
* Each Rust method `Node::f(&self, ...)` becomes `Node.f` acting on a
  `NodeLink`.  Where the Rust method body dispatches on a child link
  (`if let Some(node) = node_link { ... } else { ... }`) the `.none` case of
  the Lean function is that `else` branch; cases that are unreachable in the
  Rust source (a method receiver can never be `None`) are marked as such.
* Rust's in-place mutation becomes explicit state passing: a function that
  mutates `self` and returns `R` becomes a function returning
  `NodeLink α β × R`.
* `FnMut(&mut V)` closures are modelled as value transformers `β → β`.
* The panicking `Display` impl is modelled as an `Option String`, `none`
  standing for the panic of `unwrap` on an absent root.

Keys use an arbitrary `LinearOrder`, mirroring the `T: Ord` bound; the
three-way `key.cmp(&self.key)` match is the `compare` match below.
-/

set_option maxHeartbeats 1600000

namespace Bstmap

/-- `NodeLink<T, V> = Option<Box<Node<T, V>>>` fused with `Node<T, V>`
(src/node.rs lines 10-18): a link is either absent or a node carrying a key,
a value and two owned child links. -/
inductive NodeLink (α β : Type) : Type where
  | none : NodeLink α β
  | node (key : α) (value : β) (left right : NodeLink α β) : NodeLink α β
deriving DecidableEq

/-- `InsertAction` from src/action.rs: tells `BstMap` whether a node was
added (`increment`) or an existing node was updated (`none`). -/
inductive InsertAction : Type where
  | increment : InsertAction
  | none : InsertAction
deriving DecidableEq

/-- `RemoveAction<T, V>` from src/action.rs: either a plain return value to
pass along, or a request that the caller replace its child link with the
given subtree. -/
inductive RemoveAction (α β : Type) : Type where
  | ret (value : Option β) : RemoveAction α β
  | updateNode (link : NodeLink α β) : RemoveAction α β
deriving DecidableEq

/-- `NodePosition` from src/node.rs: selects the leftmost (`first`) or
rightmost (`last`) node for positional removal. -/
inductive NodePosition : Type where
  | first : NodePosition
  | last : NodePosition
deriving DecidableEq

variable {α β : Type}

/-- `Node::insert` (src/node.rs lines 76-96) fused with its link dispatch:
the `.none` case is the `else` arm
`*node_link = Some(Box::new(Node::new(key, value))); InsertAction::Increment`,
which is also exactly what `BstMap::insert` does for an absent head.
On an equal key the old value is clobbered and no node is added. -/
def Node.insert [LinearOrder α] : NodeLink α β → α → β → NodeLink α β × InsertAction
  | .none, key, value => (.node key value .none .none, .increment)
  | .node k v l r, key, value =>
    match compare key k with
    | .gt =>
      match Node.insert r key value with
      | (r2, action) => (.node k v l r2, action)
    | .lt =>
      match Node.insert l key value with
      | (l2, action) => (.node k v l2 r, action)
    | .eq => (.node k value l r, .none)

/-- `Node::insert_or` (src/node.rs lines 103-125), fused with its link
dispatch as in `Node.insert`: on an equal key the update function is applied
to the existing value instead of clobbering it. -/
def Node.insert_or [LinearOrder α] :
    NodeLink α β → α → β → (β → β) → NodeLink α β × InsertAction
  | .none, key, value, _ => (.node key value .none .none, .increment)
  | .node k v l r, key, value, func =>
    match compare key k with
    | .gt =>
      match Node.insert_or r key value func with
      | (r2, action) => (.node k v l r2, action)
    | .lt =>
      match Node.insert_or l key value func with
      | (l2, action) => (.node k v l2 r, action)
    | .eq => (.node k (func v) l r, .none)

/-- `Node::get` (src/node.rs lines 129-144) fused with its link dispatch:
the `.none` case is `else { None }`, which also matches the `BstMap::get`
wrapper behaviour for an absent head. -/
def Node.get [LinearOrder α] : NodeLink α β → α → Option β
  | .none, _ => Option.none
  | .node k v l r, key =>
    match compare key k with
    | .gt => Node.get r key
    | .lt => Node.get l key
    | .eq => some v

/-- `Node::get_mut` (src/node.rs lines 148-159) fused with its link
dispatch.  NOTE: the source routes `Ordering::Less` to `&mut self.right`
(line 152), so both the `gt` and the `lt` arms descend into the right
child; this is embedded as written. -/
def Node.get_mut [LinearOrder α] : NodeLink α β → α → Option β
  | .none, _ => Option.none
  | .node k v _ r, key =>
    match compare key k with
    | .gt => Node.get_mut r key
    | .lt => Node.get_mut r key
    | .eq => some v

/-- `Node::first_key_value` (src/node.rs lines 163-169): descend left while
possible.  The `.none` case is unreachable for the Rust method (it is a
method on `Node`); it is given the wrapper's answer for an empty head. -/
def Node.first_key_value : NodeLink α β → Option (α × β)
  | .none => Option.none
  | .node k v l _ =>
    match l with
    | .none => some (k, v)
    | .node lk lv ll lr => Node.first_key_value (.node lk lv ll lr)

/-- `Node::last_key_value` (src/node.rs lines 173-179): descend right while
possible; `.none` as in `Node.first_key_value`. -/
def Node.last_key_value : NodeLink α β → Option (α × β)
  | .none => Option.none
  | .node k v _ r =>
    match r with
    | .none => some (k, v)
    | .node rk rv rl rr => Node.last_key_value (.node rk rv rl rr)

/-- `Node::is_successor` (src/node.rs line 262): `!self.left.is_some()`.
The `.none` receiver is unreachable in the source. -/
def Node.is_successor : NodeLink α β → Bool
  | .none => true
  | .node _ _ l _ =>
    match l with
    | .none => true
    | .node _ _ _ _ => false

/-- `Node::get_successor` (src/node.rs lines 269-285).  The Rust method
mutates `self` (detaching the successor from the left spine) and returns the
successor; here it returns `(mutated self, successor)`.  The two `.none`
cases are unreachable in the source: the receiver is a `Node`, and
`self.left.as_mut().unwrap()` is only reached when `self.left` is `Some`
(see the comment `None is impossible` at line 271). -/
def Node.get_successor : NodeLink α β → NodeLink α β × NodeLink α β
  | .none => (.none, .none)
  | .node k v l r =>
    match l with
    | .none => (.node k v .none r, .none)
    | .node lk lv ll lr =>
      if Node.is_successor (.node lk lv ll lr) then
        ((.node k v lr r), (.node lk lv ll .none))
      else
        match Node.get_successor (.node lk lv ll lr) with
        | (l2, successor) => ((.node k v l2 r), successor)

/-- `Node::replacement_node` (src/node.rs lines 221-258): choose the subtree
that replaces `self`, based on `has_children()`.  With two children the
in-order successor is promoted: if the right child has no left child it is
the successor itself; otherwise the successor is detached from the right
child's left spine and receives the old children.  The `.none` receiver and
the `.none` result of `get_successor().unwrap()` are unreachable in the
source. -/
def Node.replacement_node : NodeLink α β → NodeLink α β
  | .none => .none
  | .node _ _ l r =>
    match l, r with
    | .none, .none => .none
    | .node lk lv ll lr, .none => .node lk lv ll lr
    | .none, .node rk rv rl rr => .node rk rv rl rr
    | .node lk lv ll lr, .node rk rv rl rr =>
      if Node.is_successor (.node rk rv rl rr) then
        .node rk rv (.node lk lv ll lr) rr
      else
        match Node.get_successor (.node rk rv rl rr) with
        | (r2, .node sk sv _ _) => .node sk sv (.node lk lv ll lr) r2
        | (_, .none) => .none

/-- `Node::remove` (src/node.rs lines 188-218).  Returns the mutated
receiver together with the `RemoveAction`.  On an equal key it answers
`UpdateNode(replacement_node())` (the mutated receiver is discarded by every
caller, so it is returned unchanged here); otherwise it recurses into the
matching child link and, when the child answers `UpdateNode`, splices the
replacement in and converts the action into `Return(Some(child value))`.
The `.none` receiver is unreachable in the source. -/
def Node.remove [LinearOrder α] : NodeLink α β → α → NodeLink α β × RemoveAction α β
  | .none, _ => (.none, .ret Option.none)
  | .node k v l r, key =>
    match compare key k with
    | .eq => (.node k v l r, .updateNode (Node.replacement_node (.node k v l r)))
    | .gt =>
      match r with
      | .none => (.node k v l .none, .ret Option.none)
      | .node rk rv rl rr =>
        match Node.remove (.node rk rv rl rr) key with
        | (r2, .ret value) => (.node k v l r2, .ret value)
        | (_, .updateNode new_node) => (.node k v l new_node, .ret (some rv))
    | .lt =>
      match l with
      | .none => (.node k v .none r, .ret Option.none)
      | .node lk lv ll lr =>
        match Node.remove (.node lk lv ll lr) key with
        | (l2, .ret value) => (.node k v l2 r, .ret value)
        | (_, .updateNode new_node) => (.node k v new_node r, .ret (some lv))

/-- `Node::remove_position` (src/node.rs lines 288-310): walk in the fixed
direction given by `pos`; when the link in that direction is absent the
current node is the one to remove and it answers
`UpdateNode(replacement_node())`; otherwise recurse and splice exactly as in
`Node.remove`.  The `.none` receiver is unreachable in the source. -/
def Node.remove_position : NodeLink α β → NodePosition → NodeLink α β × RemoveAction α β
  | .none, _ => (.none, .ret Option.none)
  | .node k v l r, pos =>
    match pos with
    | .first =>
      match l with
      | .none =>
        (.node k v .none r, .updateNode (Node.replacement_node (.node k v .none r)))
      | .node lk lv ll lr =>
        match Node.remove_position (.node lk lv ll lr) .first with
        | (l2, .ret value) => (.node k v l2 r, .ret value)
        | (_, .updateNode new_node) => (.node k v new_node r, .ret (some lv))
    | .last =>
      match r with
      | .none =>
        (.node k v l .none, .updateNode (Node.replacement_node (.node k v l .none)))
      | .node rk rv rl rr =>
        match Node.remove_position (.node rk rv rl rr) .last with
        | (r2, .ret value) => (.node k v l r2, .ret value)
        | (_, .updateNode new_node) => (.node k v l new_node, .ret (some rv))

/-- `Node::fill_owned_vec` (src/node.rs lines 34-44) fused with the
`if let Some(node)` dispatch of its recursive calls: in-order walk appending
each pair to the accumulating vector. -/
def Node.fill_owned_vec : NodeLink α β → List (α × β) → List (α × β)
  | .none, vec => vec
  | .node k v l r, vec => Node.fill_owned_vec r (Node.fill_owned_vec l vec ++ [(k, v)])

/-- `BstMap<T, V>` (src/lib.rs lines 42-45): a running element count and an
optional root node. -/
structure BstMap (α β : Type) : Type where
  len : Nat
  head : NodeLink α β
deriving DecidableEq

/-- `BstMap::new` (src/lib.rs lines 55-60). -/
def BstMap.new : BstMap α β := { len := 0, head := .none }

/-- `BstMap::clear` (src/lib.rs lines 72-75). -/
def BstMap.clear (_m : BstMap α β) : BstMap α β := { len := 0, head := .none }

/-- `BstMap::is_empty` (src/lib.rs line 78). -/
def BstMap.is_empty (m : BstMap α β) : Bool := m.len == 0

/-- `BstMap::insert` (src/lib.rs lines 101-116): dispatch to the root node
and increment `len` exactly when the returned action is `Increment`; an
absent head becomes the first node and increments `len`. -/
def BstMap.insert [LinearOrder α] (m : BstMap α β) (key : α) (value : β) : BstMap α β :=
  match m.head with
  | .node hk hv hl hr =>
    match Node.insert (.node hk hv hl hr) key value with
    | (head2, .increment) => { len := m.len + 1, head := head2 }
    | (head2, .none) => { len := m.len, head := head2 }
  | .none => { len := m.len + 1, head := .node key value .none .none }

/-- `BstMap::insert_or` (src/lib.rs lines 133-150), same shape as
`BstMap.insert`. -/
def BstMap.insert_or [LinearOrder α] (m : BstMap α β) (key : α) (value : β)
    (func : β → β) : BstMap α β :=
  match m.head with
  | .node hk hv hl hr =>
    match Node.insert_or (.node hk hv hl hr) key value func with
    | (head2, .increment) => { len := m.len + 1, head := head2 }
    | (head2, .none) => { len := m.len, head := head2 }
  | .none => { len := m.len + 1, head := .node key value .none .none }

/-- `BstMap::get` (src/lib.rs lines 154-159); the absent-head `else None`
branch coincides with `Node.get` on `.none`. -/
def BstMap.get [LinearOrder α] (m : BstMap α β) (key : α) : Option β :=
  Node.get m.head key

/-- `BstMap::get_mut` (src/lib.rs lines 163-168). -/
def BstMap.get_mut [LinearOrder α] (m : BstMap α β) (key : α) : Option β :=
  Node.get_mut m.head key

/-- `BstMap::first_key_value` (src/lib.rs lines 171-176). -/
def BstMap.first_key_value (m : BstMap α β) : Option (α × β) :=
  Node.first_key_value m.head

/-- `BstMap::last_key_value` (src/lib.rs lines 179-184). -/
def BstMap.last_key_value (m : BstMap α β) : Option (α × β) :=
  Node.last_key_value m.head

/-- `BstMap::remove` (src/lib.rs lines 189-222): returns the new map
together with the removed value.  A `Return` action decrements `len` only
when a value was actually removed; an `UpdateNode` action means the head
itself was removed, so `len` is decremented and the head replaced by the
node passed up (the un-boxing of the replacement is the identity here). -/
def BstMap.remove [LinearOrder α] (m : BstMap α β) (key : α) : BstMap α β × Option β :=
  match m.head with
  | .none => (m, Option.none)
  | .node hk hv hl hr =>
    match Node.remove (.node hk hv hl hr) key with
    | (head2, .ret value) =>
      ({ len := if value.isSome then m.len - 1 else m.len, head := head2 }, value)
    | (_, .updateNode new_head) =>
      ({ len := m.len - 1, head := new_head }, some hv)

/-- `BstMap::_remove_position` (src/lib.rs lines 232-260): with a head
present, `len` is decremented unconditionally (some node is always removed);
the action is consumed exactly as in `BstMap.remove`. -/
def BstMap.removePosition (m : BstMap α β) (position : NodePosition) :
    BstMap α β × Option β :=
  match m.head with
  | .none => (m, Option.none)
  | .node hk hv hl hr =>
    match Node.remove_position (.node hk hv hl hr) position with
    | (head2, .ret value) => ({ len := m.len - 1, head := head2 }, value)
    | (_, .updateNode new_head) => ({ len := m.len - 1, head := new_head }, some hv)

/-- `BstMap::remove_first` (src/lib.rs lines 224-226). -/
def BstMap.remove_first (m : BstMap α β) : BstMap α β × Option β :=
  m.removePosition .first

/-- `BstMap::remove_last` (src/lib.rs lines 228-230). -/
def BstMap.remove_last (m : BstMap α β) : BstMap α β × Option β :=
  m.removePosition .last

/-- One step of `Iter::next` (src/iter.rs lines 15-24): `swap_remove(0)` on
the backing vector, i.e. the first element is yielded and the last element
takes its place. -/
def Iter.next {γ : Type} : List γ → Option (γ × List γ)
  | [] => Option.none
  | p :: rest =>
    some (p,
      match rest.getLast? with
      | Option.none => []
      | some q => q :: rest.dropLast)

/-- Driving `Iter.next` to exhaustion, fuelled by the starting length; the
fuel is always sufficient because each step shrinks the vector by one. -/
def Iter.runFuel {γ : Type} : Nat → List γ → List γ
  | 0, _ => []
  | _ + 1, [] => []
  | fuel + 1, p :: rest =>
    p :: Iter.runFuel fuel
      (match rest.getLast? with
       | Option.none => []
       | some q => q :: rest.dropLast)

/-- The full sequence of items produced by the consuming iterator. -/
def Iter.run {γ : Type} (l : List γ) : List γ := Iter.runFuel l.length l

/-- `BstMap::into_iter` for the owning iterator (src/iter.rs lines 64-78)
followed by draining it: the backing vector is filled by
`fill_owned_vec` (a no-op for an absent head) and then drained through
`Iter.next`. -/
def BstMap.into_iter (m : BstMap α β) : List (α × β) :=
  Iter.run (Node.fill_owned_vec m.head [])

/-- `impl Display for Node` (src/node.rs lines 319-351) as a string
builder; `toString` stands in for the `Debug` rendering of keys and values,
and the `{:p}` memory address is omitted (it has no counterpart in the
embedding).  An absent child contributes an empty string, as in the
source. -/
def Node.fmtStr [ToString α] [ToString β] : NodeLink α β → String
  | .none => ""
  | .node k v l r =>
    let key_left : String :=
      match l with
      | .node lk _ _ _ => toString lk
      | .none => "None"
    let key_right : String :=
      match r with
      | .node rk _ _ _ => toString rk
      | .none => "None"
    "\n\n[BSTMap::Node]\n      key: " ++ toString k ++
      "\n    value: " ++ toString v ++
      "\n left key: " ++ key_left ++
      "\nright key: " ++ key_right ++
      Node.fmtStr l ++ Node.fmtStr r

/-- `impl Display for BstMap` (src/lib.rs lines 272-287).  The source
evaluates `self.head.as_ref().unwrap().key`, which panics when the head is
absent; the panic is modelled as `Option.none` (no output is produced). -/
def BstMap.fmt [ToString α] [ToString β] (m : BstMap α β) : Option String :=
  let node_display := Node.fmtStr m.head
  match m.head with
  | .none => Option.none
  | .node hk _ _ _ =>
    some ("[BstMap]\n      len: " ++ toString m.len ++
      "\n head key: " ++ toString hk ++ node_display)

/-! ### Semantic model used by the statements -/

/-- The in-order entry list of a tree (the mathematical reading of
`fill_owned_vec`). -/
def inorder : NodeLink α β → List (α × β)
  | .none => []
  | .node k v l r => inorder l ++ (k, v) :: inorder r

/-- The in-order key list of a tree. -/
def keys (t : NodeLink α β) : List α := (inorder t).map Prod.fst

/-- The strict BST invariant (spec section 3): at every node, every key of
the left subtree is strictly below the node key and every key of the right
subtree strictly above. -/
def BST [LinearOrder α] : NodeLink α β → Prop
  | .none => True
  | .node k _ l r =>
    (∀ x ∈ keys l, x < k) ∧ (∀ x ∈ keys r, k < x) ∧ BST l ∧ BST r

instance instDecidableBST [LinearOrder α] :
    (t : NodeLink α β) → Decidable (BST t)
  | .none => isTrue trivial
  | .node k _ l r =>
    have : Decidable (BST l) := instDecidableBST l
    have : Decidable (BST r) := instDecidableBST r
    inferInstanceAs (Decidable ((∀ x ∈ keys l, x < k) ∧
      (∀ x ∈ keys r, k < x) ∧ BST l ∧ BST r))

/-- Entry list with every pair at the given key removed. -/
def eraseKey [DecidableEq α] (key : α) (l : List (α × β)) : List (α × β) :=
  l.filter fun p => decide (p.1 ≠ key)

/-- Insert-or-replace on a key-sorted entry list: the list-level mirror of
what `Node.insert` does to the in-order entry list. -/
def sortedUpsert [LinearOrder α] : List (α × β) → α → β → List (α × β)
  | [], k, v => [(k, v)]
  | p :: rest, k, v =>
    if k < p.1 then (k, v) :: p :: rest
    else if p.1 < k then p :: sortedUpsert rest k v
    else (k, v) :: rest

/-- Spec-side model for the iteration round-trip claim, following the
claim's words: of a sequence of insertions, the pairs that survive are
exactly those whose key is not used by any later insertion. -/
def specSurvivingPairs [DecidableEq α] : List (α × β) → List (α × β)
  | [] => []
  | p :: rest =>
    if rest.any (fun q => decide (q.1 = p.1)) then specSurvivingPairs rest
    else p :: specSurvivingPairs rest

/-- Folding a sequence of insertions over a map. -/
def BstMap.applyInserts [LinearOrder α] (ops : List (α × β)) : BstMap α β :=
  ops.foldl (fun m p => m.insert p.1 p.2) BstMap.new

/-- The two operations named by the invariant claim about insert/remove
sequences. -/
inductive InsRemOp (α β : Type) : Type where
  | insert (key : α) (value : β) : InsRemOp α β
  | remove (key : α) : InsRemOp α β

/-- Apply one insert/remove operation. -/
def BstMap.applyInsRem [LinearOrder α] (m : BstMap α β) : InsRemOp α β → BstMap α β
  | .insert k v => m.insert k v
  | .remove k => (m.remove k).1

/-- Apply a whole sequence of insert/remove operations to the empty map. -/
def BstMap.applyInsRems [LinearOrder α] (ops : List (InsRemOp α β)) : BstMap α β :=
  ops.foldl BstMap.applyInsRem BstMap.new

/-- Every mutating operation of the public interface, for the counting
invariant claim. -/
inductive MapOp (α β : Type) : Type where
  | insert (key : α) (value : β) : MapOp α β
  | insert_or (key : α) (value : β) (func : β → β) : MapOp α β
  | remove (key : α) : MapOp α β
  | remove_first : MapOp α β
  | remove_last : MapOp α β
  | clear : MapOp α β

/-- Apply one mutating operation. -/
def BstMap.applyOp [LinearOrder α] (m : BstMap α β) : MapOp α β → BstMap α β
  | .insert k v => m.insert k v
  | .insert_or k v f => m.insert_or k v f
  | .remove k => (m.remove k).1
  | .remove_first => m.remove_first.1
  | .remove_last => m.remove_last.1
  | .clear => m.clear

/-- Apply a whole sequence of mutating operations to the empty map. -/
def BstMap.applyOps [LinearOrder α] (ops : List (MapOp α β)) : BstMap α β :=
  ops.foldl BstMap.applyOp BstMap.new

/-- Well-formedness of a map value: the documented container invariants
(spec section 3): the head satisfies the BST invariant and `len` counts the
reachable entries. -/
def WF [LinearOrder α] (m : BstMap α β) : Prop :=
  BST m.head ∧ m.len = (inorder m.head).length

/-! ### Basic facts about the semantic model -/

@[simp] theorem inorder_none : inorder (.none : NodeLink α β) = [] := rfl

@[simp] theorem inorder_node (k : α) (v : β) (l r : NodeLink α β) :
    inorder (.node k v l r) = inorder l ++ (k, v) :: inorder r := rfl

@[simp] theorem keys_none : keys (.none : NodeLink α β) = [] := rfl

@[simp] theorem keys_node (k : α) (v : β) (l r : NodeLink α β) :
    keys (.node k v l r) = keys l ++ k :: keys r := by
  simp [keys, inorder]

theorem inorder_eq_nil_iff {t : NodeLink α β} : inorder t = [] ↔ t = .none := by
  cases t <;> simp

theorem fill_owned_vec_eq (t : NodeLink α β) :
    ∀ vec : List (α × β), Node.fill_owned_vec t vec = vec ++ inorder t := by
  induction t with
  | none => simp [Node.fill_owned_vec]
  | node k v l r ihl ihr =>
    intro vec
    simp [Node.fill_owned_vec, ihl, ihr]

@[simp] theorem bst_none [LinearOrder α] : BST (.none : NodeLink α β) := trivial

theorem bst_node_iff [LinearOrder α] {k : α} {v : β} {l r : NodeLink α β} :
    BST (.node k v l r) ↔
      (∀ x ∈ keys l, x < k) ∧ (∀ x ∈ keys r, k < x) ∧ BST l ∧ BST r := Iff.rfl

theorem bst_iff_pairwise [LinearOrder α] {t : NodeLink α β} :
    BST t ↔ (keys t).Pairwise (fun a b => a < b) := by
  induction t with
  | none => simp
  | node k v l r ihl ihr =>
    rw [bst_node_iff, keys_node, List.pairwise_append]
    constructor
    · rintro ⟨hlk, hrk, hl, hr⟩
      refine ⟨ihl.mp hl, ?_, ?_⟩
      · rw [List.pairwise_cons]
        exact ⟨hrk, ihr.mp hr⟩
      · intro a ha b hb
        rcases List.mem_cons.mp hb with rfl | hb
        · exact hlk a ha
        · exact lt_trans (hlk a ha) (hrk b hb)
    · rintro ⟨hpl, hpr, hcross⟩
      rw [List.pairwise_cons] at hpr
      refine ⟨?_, hpr.1, ihl.mpr hpl, ihr.mpr hpr.2⟩
      intro x hx
      exact hcross x hx k (List.mem_cons_self k _)

theorem bst_left [LinearOrder α] {k : α} {v : β} {l r : NodeLink α β}
    (h : BST (.node k v l r)) : BST l := h.2.2.1

theorem bst_right [LinearOrder α] {k : α} {v : β} {l r : NodeLink α β}
    (h : BST (.node k v l r)) : BST r := h.2.2.2

/-! ### The consuming iterator is a permutation of its backing vector -/

theorem getLast_cons_dropLast_perm {γ : Type} :
    ∀ (l : List γ) (q : γ), l.getLast? = some q → (q :: l.dropLast).Perm l := by
  intro l
  induction l with
  | nil => intro q h; simp at h
  | cons x t ih =>
    intro q h
    cases t with
    | nil =>
      simp at h
      subst h
      simp
    | cons y t2 =>
      rw [List.getLast?_cons_cons] at h
      have hperm := ih q h
      rw [List.dropLast_cons₂]
      exact (List.Perm.swap x q _).trans (List.Perm.cons x hperm)

theorem iter_runFuel_nil {γ : Type} (n : Nat) : Iter.runFuel n ([] : List γ) = [] := by
  cases n <;> rfl

theorem iter_runFuel_perm {γ : Type} :
    ∀ (n : Nat) (l : List γ), l.length ≤ n → (Iter.runFuel n l).Perm l := by
  intro n
  induction n with
  | zero =>
    intro l h
    rw [Nat.le_zero] at h
    rw [List.length_eq_zero] at h
    subst h
    simp [Iter.runFuel]
  | succ n ih =>
    intro l h
    cases l with
    | nil => simp [Iter.runFuel]
    | cons p rest =>
      rw [Iter.runFuel]
      cases hlast : rest.getLast? with
      | none =>
        rw [List.getLast?_eq_none_iff] at hlast
        subst hlast
        simp [iter_runFuel_nil]
      | some q =>
        have hne : rest ≠ [] := by
          intro hrest
          rw [hrest] at hlast
          simp at hlast
        have hlen : (q :: rest.dropLast).length ≤ n := by
          simp only [List.length_cons, List.length_dropLast]
          have h1 : 0 < rest.length := List.length_pos.mpr hne
          simp only [List.length_cons] at h
          omega
        have hperm := ih (q :: rest.dropLast) hlen
        exact List.Perm.cons p (hperm.trans (getLast_cons_dropLast_perm rest q hlast))

theorem iter_run_perm {γ : Type} (l : List γ) : (Iter.run l).Perm l :=
  iter_runFuel_perm l.length l (le_refl _)

theorem into_iter_perm_inorder (m : BstMap α β) :
    (BstMap.into_iter m).Perm (inorder m.head) := by
  rw [BstMap.into_iter, fill_owned_vec_eq]
  simpa using iter_run_perm (inorder m.head)

/-! ### Lookup -/

theorem mem_keys_of_mem_inorder {t : NodeLink α β} {p : α × β} (h : p ∈ inorder t) :
    p.1 ∈ keys t := List.mem_map_of_mem Prod.fst h

theorem get_some_mem [LinearOrder α] {t : NodeLink α β} {key : α} {v : β}
    (h : Node.get t key = some v) : (key, v) ∈ inorder t := by
  induction t with
  | none => simp [Node.get] at h
  | node k kv l r ihl ihr =>
    cases hc : compare key k with
    | lt =>
      simp only [Node.get, hc] at h
      simp only [inorder_node, List.mem_append, List.mem_cons]
      exact Or.inl (ihl h)
    | gt =>
      simp only [Node.get, hc] at h
      simp only [inorder_node, List.mem_append, List.mem_cons]
      exact Or.inr (Or.inr (ihr h))
    | eq =>
      simp only [Node.get, hc, Option.some.injEq] at h
      have hk : key = k := compare_eq_iff_eq.mp hc
      subst hk
      subst h
      simp

theorem mem_get [LinearOrder α] {t : NodeLink α β} (hbst : BST t) {key : α} {v : β}
    (h : (key, v) ∈ inorder t) : Node.get t key = some v := by
  induction t with
  | none => simp at h
  | node k kv l r ihl ihr =>
    rcases hbst with ⟨hlk, hrk, hl, hr⟩
    rw [inorder_node, List.mem_append, List.mem_cons] at h
    cases hc : compare key k with
    | lt =>
      have hklt : key < k := compare_lt_iff_lt.mp hc
      simp only [Node.get, hc]
      rcases h with h | h | h
      · exact ihl hl h
      · exact absurd (congrArg Prod.fst h) (by simp [ne_of_lt hklt])
      · exact absurd (hrk key (mem_keys_of_mem_inorder h)) (not_lt_of_gt hklt)
    | gt =>
      have hkgt : k < key := compare_gt_iff_gt.mp hc
      simp only [Node.get, hc]
      rcases h with h | h | h
      · exact absurd (hlk key (mem_keys_of_mem_inorder h)) (not_lt_of_gt hkgt)
      · exact absurd (congrArg Prod.fst h) (by simp [ne_of_gt hkgt])
      · exact ihr hr h
    | eq =>
      have hkeq : key = k := compare_eq_iff_eq.mp hc
      subst hkeq
      simp only [Node.get, hc]
      rcases h with h | h | h
      · exact absurd (hlk key (mem_keys_of_mem_inorder h)) (lt_irrefl key)
      · rw [Prod.mk.injEq] at h
        rw [h.2]
      · exact absurd (hrk key (mem_keys_of_mem_inorder h)) (lt_irrefl key)

theorem get_eq_none_iff [LinearOrder α] {t : NodeLink α β} (hbst : BST t) {key : α} :
    Node.get t key = Option.none ↔ key ∉ keys t := by
  constructor
  · intro h hk
    rcases List.mem_map.mp hk with ⟨p, hp, hfst⟩
    have hmem : (key, p.2) ∈ inorder t := by
      rw [← hfst]
      exact hp
    rw [mem_get hbst hmem] at h
    exact Option.noConfusion h
  · intro h
    cases hsome : Node.get t key with
    | none => rfl
    | some v => exact absurd (mem_keys_of_mem_inorder (get_some_mem hsome)) h

theorem get_isSome_iff [LinearOrder α] {t : NodeLink α β} (hbst : BST t) {key : α} :
    (Node.get t key).isSome = true ↔ key ∈ keys t := by
  rw [← Decidable.not_iff_not, Bool.not_eq_true, Option.not_isSome,
    Option.isNone_iff_eq_none, get_eq_none_iff hbst]

/-! ### Insert -/

theorem insert_get_self [LinearOrder α] (t : NodeLink α β) (key : α) (value : β) :
    Node.get (Node.insert t key value).1 key = some value := by
  induction t with
  | none => simp [Node.insert, Node.get, compare_eq_iff_eq.mpr rfl]
  | node k v l r ihl ihr =>
    cases hc : compare key k with
    | lt =>
      rcases hins : Node.insert l key value with ⟨l2, a⟩
      rw [hins] at ihl
      simp only [Node.insert, hc, hins]
      simpa [Node.get, hc] using ihl
    | gt =>
      rcases hins : Node.insert r key value with ⟨r2, a⟩
      rw [hins] at ihr
      simp only [Node.insert, hc, hins]
      simpa [Node.get, hc] using ihr
    | eq =>
      simp [Node.insert, hc, Node.get]

theorem insert_action_eq [LinearOrder α] (t : NodeLink α β) (key : α) (value : β) :
    (Node.insert t key value).2 =
      (match Node.get t key with
       | some _ => InsertAction.none
       | Option.none => InsertAction.increment) := by
  induction t with
  | none => simp [Node.insert, Node.get]
  | node k v l r ihl ihr =>
    cases hc : compare key k with
    | lt =>
      rcases hins : Node.insert l key value with ⟨l2, a⟩
      rw [hins] at ihl
      simp only [Node.insert, hc, hins, Node.get]
      exact ihl
    | gt =>
      rcases hins : Node.insert r key value with ⟨r2, a⟩
      rw [hins] at ihr
      simp only [Node.insert, hc, hins, Node.get]
      exact ihr
    | eq =>
      simp [Node.insert, hc, Node.get]

theorem insert_length [LinearOrder α] (t : NodeLink α β) (key : α) (value : β) :
    (inorder (Node.insert t key value).1).length =
      (inorder t).length +
        (match (Node.insert t key value).2 with
         | .increment => 1
         | .none => 0) := by
  induction t with
  | none => simp [Node.insert]
  | node k v l r ihl ihr =>
    cases hc : compare key k with
    | lt =>
      rcases hins : Node.insert l key value with ⟨l2, a⟩
      rw [hins] at ihl
      simp only [Node.insert, hc, hins, inorder_node, List.length_append,
        List.length_cons] at ihl ⊢
      cases a <;> simp at ihl ⊢ <;> omega
    | gt =>
      rcases hins : Node.insert r key value with ⟨r2, a⟩
      rw [hins] at ihr
      simp only [Node.insert, hc, hins, inorder_node, List.length_append,
        List.length_cons] at ihr ⊢
      cases a <;> simp at ihr ⊢ <;> omega
    | eq =>
      simp [Node.insert, hc]

/-! ### The effect of insert on the in-order entry list -/

theorem mem_sortedUpsert [LinearOrder α] {l : List (α × β)} {k : α} {v : β} :
    ∀ {x : α × β}, x ∈ sortedUpsert l k v → x = (k, v) ∨ x ∈ l := by
  induction l with
  | nil =>
    intro x hx
    simp [sortedUpsert] at hx
    exact Or.inl hx
  | cons p rest ih =>
    intro x hx
    by_cases h1 : k < p.1
    · simp only [sortedUpsert, if_pos h1, List.mem_cons] at hx
      rcases hx with rfl | rfl | hx
      · exact Or.inl rfl
      · exact Or.inr (List.mem_cons_self _ _)
      · exact Or.inr (List.mem_cons_of_mem _ hx)
    · by_cases h2 : p.1 < k
      · simp only [sortedUpsert, if_neg h1, if_pos h2, List.mem_cons] at hx
        rcases hx with rfl | hx
        · exact Or.inr (List.mem_cons_self _ _)
        · rcases ih hx with h | h
          · exact Or.inl h
          · exact Or.inr (List.mem_cons_of_mem _ h)
      · simp only [sortedUpsert, if_neg h1, if_neg h2, List.mem_cons] at hx
        rcases hx with rfl | hx
        · exact Or.inl rfl
        · exact Or.inr (List.mem_cons_of_mem _ hx)

theorem self_mem_sortedUpsert [LinearOrder α] (l : List (α × β)) (k : α) (v : β) :
    (k, v) ∈ sortedUpsert l k v := by
  induction l with
  | nil => simp [sortedUpsert]
  | cons p rest ih =>
    by_cases h1 : k < p.1
    · simp [sortedUpsert, if_pos h1]
    · by_cases h2 : p.1 < k
      · simp only [sortedUpsert, if_neg h1, if_pos h2, List.mem_cons]
        exact Or.inr ih
      · simp [sortedUpsert, if_neg h1, if_neg h2]

theorem pairwise_sortedUpsert [LinearOrder α] {l : List (α × β)} {k : α} {v : β}
    (h : l.Pairwise (fun p q => p.1 < q.1)) :
    (sortedUpsert l k v).Pairwise (fun p q => p.1 < q.1) := by
  induction l with
  | nil => simp [sortedUpsert]
  | cons p rest ih =>
    rw [List.pairwise_cons] at h
    by_cases h1 : k < p.1
    · rw [sortedUpsert, if_pos h1, List.pairwise_cons]
      constructor
      · intro q hq
        rcases List.mem_cons.mp hq with rfl | hq
        · exact h1
        · exact lt_trans h1 (h.1 q hq)
      · exact List.pairwise_cons.mpr h
    · by_cases h2 : p.1 < k
      · rw [sortedUpsert, if_neg h1, if_pos h2, List.pairwise_cons]
        constructor
        · intro q hq
          rcases mem_sortedUpsert hq with rfl | hq
          · exact h2
          · exact h.1 q hq
        · exact ih h.2
      · have hk : k = p.1 := le_antisymm (not_lt.mp h2) (not_lt.mp h1)
        rw [sortedUpsert, if_neg h1, if_neg h2, List.pairwise_cons]
        constructor
        · intro q hq
          rw [hk]
          exact h.1 q hq
        · exact h.2

theorem sortedUpsert_append_right [LinearOrder α] {A B : List (α × β)} {k k2 : α}
    {v2 v : β} (hA : ∀ p ∈ A, p.1 < k) (hk : k2 < k) :
    sortedUpsert (A ++ (k2, v2) :: B) k v = A ++ (k2, v2) :: sortedUpsert B k v := by
  induction A with
  | nil => simp [sortedUpsert, hk, asymm hk]
  | cons p A2 ih =>
    have hp : p.1 < k := hA p (List.mem_cons_self _ _)
    have ih2 := ih fun q hq => hA q (List.mem_cons_of_mem _ hq)
    simp only [List.cons_append, sortedUpsert, List.append_eq, if_neg (asymm hp), if_pos hp, ih2]

theorem sortedUpsert_append_left [LinearOrder α] {A B : List (α × β)} {k k2 : α}
    {v2 v : β} (hk : k < k2) :
    sortedUpsert (A ++ (k2, v2) :: B) k v = sortedUpsert A k v ++ (k2, v2) :: B := by
  induction A with
  | nil => simp [sortedUpsert, hk]
  | cons p A2 ih =>
    by_cases h1 : k < p.1
    · simp [sortedUpsert, if_pos h1]
    · by_cases h2 : p.1 < k
      · simp [sortedUpsert, if_neg h1, if_pos h2, ih]
      · simp [sortedUpsert, if_neg h1, if_neg h2]

theorem sortedUpsert_append_eq [LinearOrder α] {A B : List (α × β)} {k : α}
    {v2 v : β} (hA : ∀ p ∈ A, p.1 < k) :
    sortedUpsert (A ++ (k, v2) :: B) k v = A ++ (k, v) :: B := by
  induction A with
  | nil => simp [sortedUpsert, lt_irrefl]
  | cons p A2 ih =>
    have hp : p.1 < k := hA p (List.mem_cons_self _ _)
    have ih2 := ih fun q hq => hA q (List.mem_cons_of_mem _ hq)
    simp only [List.cons_append, sortedUpsert, List.append_eq, if_neg (asymm hp), if_pos hp, ih2]

theorem lt_key_of_mem_inorder [LinearOrder α] {t : NodeLink α β} {p : α × β} {k : α}
    (hbound : ∀ x ∈ keys t, x < k) (h : p ∈ inorder t) : p.1 < k :=
  hbound p.1 (mem_keys_of_mem_inorder h)

theorem insert_inorder [LinearOrder α] {t : NodeLink α β} (hbst : BST t)
    (key : α) (value : β) :
    inorder (Node.insert t key value).1 = sortedUpsert (inorder t) key value := by
  induction t with
  | none => simp [Node.insert, sortedUpsert]
  | node k v l r ihl ihr =>
    rcases hbst with ⟨hlk, hrk, hl, hr⟩
    cases hc : compare key k with
    | lt =>
      have hklt : key < k := compare_lt_iff_lt.mp hc
      rcases hins : Node.insert l key value with ⟨l2, a⟩
      have ihl2 := ihl hl
      rw [hins] at ihl2
      simp only [Node.insert, hc, hins, inorder_node]
      rw [sortedUpsert_append_left hklt]
      rw [← ihl2]
    | gt =>
      have hkgt : k < key := compare_gt_iff_gt.mp hc
      rcases hins : Node.insert r key value with ⟨r2, a⟩
      have ihr2 := ihr hr
      rw [hins] at ihr2
      simp only [Node.insert, hc, hins, inorder_node]
      rw [sortedUpsert_append_right
        (fun p hp => lt_trans (lt_key_of_mem_inorder hlk hp) hkgt) hkgt]
      rw [← ihr2]
    | eq =>
      have hkeq : key = k := compare_eq_iff_eq.mp hc
      subst hkeq
      simp only [Node.insert, hc, inorder_node]
      rw [sortedUpsert_append_eq (fun p hp => lt_key_of_mem_inorder hlk hp)]

theorem bst_iff_pairwise_inorder [LinearOrder α] {t : NodeLink α β} :
    BST t ↔ (inorder t).Pairwise (fun p q : α × β => p.1 < q.1) := by
  rw [bst_iff_pairwise, keys, List.pairwise_map]

theorem bst_insert [LinearOrder α] {t : NodeLink α β} (hbst : BST t)
    (key : α) (value : β) : BST (Node.insert t key value).1 := by
  rw [bst_iff_pairwise_inorder, insert_inorder hbst]
  exact pairwise_sortedUpsert (bst_iff_pairwise_inorder.mp hbst)

theorem countP_eq_one_of_pairwise [LinearOrder α] {l : List (α × β)}
    (h : l.Pairwise (fun p q => p.1 < q.1)) {k : α} {v : β} (hm : (k, v) ∈ l) :
    l.countP (fun p => decide (p.1 = k)) = 1 := by
  induction l with
  | nil => simp at hm
  | cons p rest ih =>
    rw [List.pairwise_cons] at h
    rcases List.mem_cons.mp hm with rfl | hm2
    · rw [List.countP_cons_of_pos _ _ (by simp)]
      have hzero : rest.countP (fun p => decide (p.1 = k)) = 0 := by
        rw [List.countP_eq_zero]
        intro q hq
        simp only [decide_eq_true_eq]
        exact ne_of_gt (h.1 q hq)
      rw [hzero]
    · have hne : p.1 ≠ k := ne_of_lt (h.1 _ hm2)
      rw [List.countP_cons_of_neg _ _ (by simpa using hne)]
      exact ih h.2 hm2

/-! ### Successor promotion and the replacement subtree -/

theorem is_successor_true_iff (k : α) (v : β) (l r : NodeLink α β) :
    Node.is_successor (.node k v l r) = true ↔ l = .none := by
  cases l <;> simp [Node.is_successor]

theorem get_successor_spec :
    ∀ (l : NodeLink α β) (k : α) (v : β) (r : NodeLink α β), l ≠ .none →
      inorder (NodeLink.node k v l r) =
        inorder (Node.get_successor (.node k v l r)).2 ++
          inorder (Node.get_successor (.node k v l r)).1 ∧
      ∃ sk sv, (Node.get_successor (.node k v l r)).2 =
        NodeLink.node sk sv .none .none := by
  intro l
  induction l with
  | none => intro k v r hne; exact absurd rfl hne
  | node lk lv ll lr ihl ihr =>
    intro k v r _
    by_cases hsucc : Node.is_successor (.node lk lv ll lr) = true
    · have hll : ll = .none := (is_successor_true_iff lk lv ll lr).mp hsucc
      subst hll
      refine ⟨?_, lk, lv, ?_⟩
      · simp [Node.get_successor, hsucc]
      · simp [Node.get_successor, hsucc]
    · have hll : ll ≠ .none := fun h => hsucc ((is_successor_true_iff lk lv ll lr).mpr h)
      rcases hgs : Node.get_successor (.node lk lv ll lr) with ⟨l2, succ⟩
      have ih := ihl lk lv lr hll
      rw [hgs] at ih
      obtain ⟨hin, sk, sv, hshape⟩ := ih
      refine ⟨?_, sk, sv, ?_⟩
      · simp only [Node.get_successor, if_neg hsucc, hgs, inorder_node]
        simp only [inorder_node] at hin
        rw [hin]
        simp
      · simp only [Node.get_successor, if_neg hsucc, hgs]
        exact hshape

theorem inorder_replacement (k : α) (v : β) (l r : NodeLink α β) :
    inorder (Node.replacement_node (.node k v l r)) = inorder l ++ inorder r := by
  cases l with
  | none =>
    cases r with
    | none => simp [Node.replacement_node]
    | node rk rv rl rr => simp [Node.replacement_node]
  | node lk lv ll lr =>
    cases r with
    | none => simp [Node.replacement_node]
    | node rk rv rl rr =>
      by_cases hsucc : Node.is_successor (.node rk rv rl rr) = true
      · have hrl : rl = .none := (is_successor_true_iff rk rv rl rr).mp hsucc
        subst hrl
        simp [Node.replacement_node, hsucc]
      · have hrl : rl ≠ .none := fun h => hsucc ((is_successor_true_iff rk rv rl rr).mpr h)
        rcases hgs : Node.get_successor (.node rk rv rl rr) with ⟨r2, succ⟩
        have hspec := get_successor_spec rl rk rv rr hrl
        rw [hgs] at hspec
        obtain ⟨hin, sk, sv, hshape⟩ := hspec
        subst hshape
        simp only [Node.replacement_node, if_neg hsucc, hgs, inorder_node]
        simp only [inorder_node] at hin
        rw [hin]
        simp

/-! ### The effect of remove on the in-order entry list -/

theorem eraseKey_append [DecidableEq α] (key : α) (l1 l2 : List (α × β)) :
    eraseKey key (l1 ++ l2) = eraseKey key l1 ++ eraseKey key l2 := by
  simp [eraseKey]

theorem eraseKey_cons_of_ne [DecidableEq α] {key : α} {p : α × β}
    (h : p.1 ≠ key) (l : List (α × β)) :
    eraseKey key (p :: l) = p :: eraseKey key l := by
  simp [eraseKey, h]

theorem eraseKey_cons_self [DecidableEq α] {key : α} {p : α × β}
    (h : p.1 = key) (l : List (α × β)) :
    eraseKey key (p :: l) = eraseKey key l := by
  simp [eraseKey, h]

theorem eraseKey_eq_self_of_not_mem [DecidableEq α] {l : List (α × β)} {key : α}
    (h : ∀ p ∈ l, p.1 ≠ key) : eraseKey key l = l :=
  List.filter_eq_self.mpr fun p hp => by simpa using h p hp

theorem remove_eq_case [LinearOrder α] {key k : α} (hc : compare key k = .eq)
    (v : β) (l r : NodeLink α β) :
    Node.remove (.node k v l r) key =
      (.node k v l r, .updateNode (Node.replacement_node (.node k v l r))) := by
  cases l <;> cases r <;> simp [Node.remove, hc]

theorem remove_gt_none [LinearOrder α] {key k : α} (hc : compare key k = .gt)
    (v : β) (l : NodeLink α β) :
    Node.remove (.node k v l .none) key = (.node k v l .none, .ret Option.none) := by
  cases l <;> simp [Node.remove, hc]

theorem remove_gt_ret [LinearOrder α] {key k : α} (hc : compare key k = .gt)
    (v : β) (l : NodeLink α β) {rk : α} {rv : β} {rl rr r2 : NodeLink α β}
    {value : Option β}
    (hrem : Node.remove (.node rk rv rl rr) key = (r2, .ret value)) :
    Node.remove (.node k v l (.node rk rv rl rr)) key =
      (.node k v l r2, .ret value) := by
  cases l <;> simp [Node.remove, hc, hrem]

theorem remove_gt_upd [LinearOrder α] {key k : α} (hc : compare key k = .gt)
    (v : β) (l : NodeLink α β) {rk : α} {rv : β} {rl rr rdrop nn : NodeLink α β}
    (hrem : Node.remove (.node rk rv rl rr) key = (rdrop, .updateNode nn)) :
    Node.remove (.node k v l (.node rk rv rl rr)) key =
      (.node k v l nn, .ret (some rv)) := by
  cases l <;> simp [Node.remove, hc, hrem]

theorem remove_lt_none [LinearOrder α] {key k : α} (hc : compare key k = .lt)
    (v : β) (r : NodeLink α β) :
    Node.remove (.node k v .none r) key = (.node k v .none r, .ret Option.none) := by
  cases r <;> simp [Node.remove, hc]

theorem remove_lt_ret [LinearOrder α] {key k : α} (hc : compare key k = .lt)
    (v : β) (r : NodeLink α β) {lk : α} {lv : β} {ll lr l2 : NodeLink α β}
    {value : Option β}
    (hrem : Node.remove (.node lk lv ll lr) key = (l2, .ret value)) :
    Node.remove (.node k v (.node lk lv ll lr) r) key =
      (.node k v l2 r, .ret value) := by
  cases r <;> simp [Node.remove, hc, hrem]

theorem remove_lt_upd [LinearOrder α] {key k : α} (hc : compare key k = .lt)
    (v : β) (r : NodeLink α β) {lk : α} {lv : β} {ll lr ldrop nn : NodeLink α β}
    (hrem : Node.remove (.node lk lv ll lr) key = (ldrop, .updateNode nn)) :
    Node.remove (.node k v (.node lk lv ll lr) r) key =
      (.node k v nn r, .ret (some lv)) := by
  cases r <;> simp [Node.remove, hc, hrem]

theorem remove_spec [LinearOrder α] (key : α) :
    ∀ t : NodeLink α β, BST t →
      (∀ t2 res, Node.remove t key = (t2, .ret res) →
        inorder t2 = eraseKey key (inorder t) ∧ res = Node.get t key) ∧
      (∀ t2 nn, Node.remove t key = (t2, .updateNode nn) →
        inorder nn = eraseKey key (inorder t) ∧
        ∃ v l r, t = .node key v l r) := by
  intro t
  induction t with
  | none =>
    intro _
    refine ⟨?_, ?_⟩
    · intro t2 res h
      simp only [Node.remove, Prod.mk.injEq, RemoveAction.ret.injEq] at h
      obtain ⟨rfl, rfl⟩ := h
      simp [eraseKey, Node.get]
    · intro t2 nn h
      simp [Node.remove] at h
  | node k v l r ihl ihr =>
    rintro ⟨hlk, hrk, hl, hr⟩
    cases hc : compare key k with
    | eq =>
      have hkeq : key = k := compare_eq_iff_eq.mp hc
      refine ⟨?_, ?_⟩
      · intro t2 res h
        rw [remove_eq_case hc] at h
        simp at h
      · intro t2 nn h
        rw [remove_eq_case hc] at h
        simp only [Prod.mk.injEq, RemoveAction.updateNode.injEq] at h
        obtain ⟨-, hnn⟩ := h
        subst hnn
        refine ⟨?_, v, l, r, by rw [hkeq]⟩
        rw [inorder_replacement, inorder_node, eraseKey_append,
          eraseKey_eq_self_of_not_mem
            (fun p hp => by rw [hkeq]; exact ne_of_lt (lt_key_of_mem_inorder hlk hp)),
          eraseKey_cons_self (by simp [hkeq]),
          eraseKey_eq_self_of_not_mem
            (fun p hp => by
              rw [hkeq]
              exact ne_of_gt (hrk p.1 (mem_keys_of_mem_inorder hp)))]
    | gt =>
      have hkgt : k < key := compare_gt_iff_gt.mp hc
      have hlself : eraseKey key (inorder l) = inorder l :=
        eraseKey_eq_self_of_not_mem fun p hp =>
          ne_of_lt (lt_trans (lt_key_of_mem_inorder hlk hp) hkgt)
      cases r with
      | none =>
        refine ⟨?_, ?_⟩
        · intro t2 res h
          rw [remove_gt_none hc] at h
          simp only [Prod.mk.injEq, RemoveAction.ret.injEq] at h
          obtain ⟨rfl, rfl⟩ := h
          refine ⟨?_, by simp [Node.get, hc]⟩
          rw [inorder_node, eraseKey_append, hlself,
            eraseKey_cons_of_ne (show (k, v).1 ≠ key from ne_of_lt hkgt)]
          simp [eraseKey]
        · intro t2 nn h
          rw [remove_gt_none hc] at h
          simp at h
      | node rk rv rl rr =>
        rcases hrem : Node.remove (.node rk rv rl rr) key with ⟨r2, act⟩
        have ihr2 := ihr hr
        cases act with
        | ret rres =>
          obtain ⟨hin, hres⟩ := ihr2.1 r2 rres hrem
          refine ⟨?_, ?_⟩
          · intro t2 res h
            rw [remove_gt_ret hc v l hrem] at h
            simp only [Prod.mk.injEq, RemoveAction.ret.injEq] at h
            obtain ⟨rfl, rfl⟩ := h
            refine ⟨?_, by rw [hres]; simp [Node.get, hc]⟩
            rw [inorder_node, inorder_node, eraseKey_append, hlself,
              eraseKey_cons_of_ne (show (k, v).1 ≠ key from ne_of_lt hkgt), hin]
          · intro t2 nn h
            rw [remove_gt_ret hc v l hrem] at h
            simp at h
        | updateNode mm =>
          obtain ⟨hin, v2, l2, r2x, heqn⟩ := ihr2.2 _ mm hrem
          injection heqn with hk1 hv1 hl1 hr1
          refine ⟨?_, ?_⟩
          · intro t2 res h
            rw [remove_gt_upd hc v l hrem] at h
            simp only [Prod.mk.injEq, RemoveAction.ret.injEq] at h
            obtain ⟨rfl, rfl⟩ := h
            refine ⟨?_, ?_⟩
            · rw [inorder_node, inorder_node, eraseKey_append, hlself,
                eraseKey_cons_of_ne (show (k, v).1 ≠ key from ne_of_lt hkgt), hin]
            · subst hk1
              simp [Node.get, hc, compare_eq_iff_eq.mpr rfl]
          · intro t2 nn h
            rw [remove_gt_upd hc v l hrem] at h
            simp at h
    | lt =>
      have hklt : key < k := compare_lt_iff_lt.mp hc
      have hrself : eraseKey key (inorder r) = inorder r :=
        eraseKey_eq_self_of_not_mem fun p hp =>
          ne_of_gt (lt_trans hklt (hrk p.1 (mem_keys_of_mem_inorder hp)))
      cases l with
      | none =>
        refine ⟨?_, ?_⟩
        · intro t2 res h
          rw [remove_lt_none hc] at h
          simp only [Prod.mk.injEq, RemoveAction.ret.injEq] at h
          obtain ⟨rfl, rfl⟩ := h
          refine ⟨?_, by simp [Node.get, hc]⟩
          rw [inorder_node, eraseKey_append,
            eraseKey_cons_of_ne (show (k, v).1 ≠ key from ne_of_gt hklt), hrself]
          simp [eraseKey]
        · intro t2 nn h
          rw [remove_lt_none hc] at h
          simp at h
      | node lk lv ll lr =>
        rcases hrem : Node.remove (.node lk lv ll lr) key with ⟨l2, act⟩
        have ihl2 := ihl hl
        cases act with
        | ret lres =>
          obtain ⟨hin, hres⟩ := ihl2.1 l2 lres hrem
          refine ⟨?_, ?_⟩
          · intro t2 res h
            rw [remove_lt_ret hc v r hrem] at h
            simp only [Prod.mk.injEq, RemoveAction.ret.injEq] at h
            obtain ⟨rfl, rfl⟩ := h
            refine ⟨?_, by rw [hres]; simp [Node.get, hc]⟩
            rw [inorder_node, inorder_node, eraseKey_append,
              eraseKey_cons_of_ne (show (k, v).1 ≠ key from ne_of_gt hklt), hrself, hin]
          · intro t2 nn h
            rw [remove_lt_ret hc v r hrem] at h
            simp at h
        | updateNode mm =>
          obtain ⟨hin, v2, l2x, r2x, heqn⟩ := ihl2.2 _ mm hrem
          injection heqn with hk1 hv1 hl1 hr1
          refine ⟨?_, ?_⟩
          · intro t2 res h
            rw [remove_lt_upd hc v r hrem] at h
            simp only [Prod.mk.injEq, RemoveAction.ret.injEq] at h
            obtain ⟨rfl, rfl⟩ := h
            refine ⟨?_, ?_⟩
            · rw [inorder_node, inorder_node, eraseKey_append,
                eraseKey_cons_of_ne (show (k, v).1 ≠ key from ne_of_gt hklt), hrself, hin]
            · subst hk1
              simp [Node.get, hc, compare_eq_iff_eq.mpr rfl]
          · intro t2 nn h
            rw [remove_lt_upd hc v r hrem] at h
            simp at h

/-! ### Positional removal -/

theorem replacement_left_none (k : α) (v : β) (r : NodeLink α β) :
    Node.replacement_node (.node k v .none r) = r := by
  cases r <;> simp [Node.replacement_node]

theorem replacement_right_none (k : α) (v : β) (l : NodeLink α β) :
    Node.replacement_node (.node k v l .none) = l := by
  cases l <;> simp [Node.replacement_node]

theorem rp_first_none (k : α) (v : β) (r : NodeLink α β) :
    Node.remove_position (.node k v .none r) .first =
      (.node k v .none r, .updateNode (Node.replacement_node (.node k v .none r))) := by
  cases r <;> simp [Node.remove_position]

theorem rp_first_ret (k : α) (v : β) {lk : α} {lv : β} {ll lr l2 : NodeLink α β}
    {value : Option β} (r : NodeLink α β)
    (h : Node.remove_position (.node lk lv ll lr) .first = (l2, .ret value)) :
    Node.remove_position (.node k v (.node lk lv ll lr) r) .first =
      (.node k v l2 r, .ret value) := by
  cases r <;> simp [Node.remove_position, h]

theorem rp_first_upd (k : α) (v : β) {lk : α} {lv : β} {ll lr ldrop nn : NodeLink α β}
    (r : NodeLink α β)
    (h : Node.remove_position (.node lk lv ll lr) .first = (ldrop, .updateNode nn)) :
    Node.remove_position (.node k v (.node lk lv ll lr) r) .first =
      (.node k v nn r, .ret (some lv)) := by
  cases r <;> simp [Node.remove_position, h]

theorem rp_last_none (k : α) (v : β) (l : NodeLink α β) :
    Node.remove_position (.node k v l .none) .last =
      (.node k v l .none, .updateNode (Node.replacement_node (.node k v l .none))) := by
  cases l <;> simp [Node.remove_position]

theorem rp_last_ret (k : α) (v : β) {rk : α} {rv : β} {rl rr r2 : NodeLink α β}
    {value : Option β} (l : NodeLink α β)
    (h : Node.remove_position (.node rk rv rl rr) .last = (r2, .ret value)) :
    Node.remove_position (.node k v l (.node rk rv rl rr)) .last =
      (.node k v l r2, .ret value) := by
  cases l <;> simp [Node.remove_position, h]

theorem rp_last_upd (k : α) (v : β) {rk : α} {rv : β} {rl rr rdrop nn : NodeLink α β}
    (l : NodeLink α β)
    (h : Node.remove_position (.node rk rv rl rr) .last = (rdrop, .updateNode nn)) :
    Node.remove_position (.node k v l (.node rk rv rl rr)) .last =
      (.node k v l nn, .ret (some rv)) := by
  cases l <;> simp [Node.remove_position, h]

theorem rp_first_spec :
    ∀ (l : NodeLink α β) (k : α) (v : β) (r : NodeLink α β),
      (∀ t2 res, Node.remove_position (.node k v l r) .first = (t2, .ret res) →
        ∃ p, inorder (NodeLink.node k v l r) = p :: inorder t2 ∧ res = some p.2) ∧
      (∀ t2 nn, Node.remove_position (.node k v l r) .first = (t2, .updateNode nn) →
        inorder (NodeLink.node k v l r) = (k, v) :: inorder nn) := by
  intro l
  induction l with
  | none =>
    intro k v r
    refine ⟨?_, ?_⟩
    · intro t2 res h
      rw [rp_first_none] at h
      simp at h
    · intro t2 nn h
      rw [rp_first_none] at h
      simp only [Prod.mk.injEq, RemoveAction.updateNode.injEq] at h
      obtain ⟨-, hnn⟩ := h
      subst hnn
      rw [replacement_left_none]
      simp
  | node lk lv ll lr ihl ihr =>
    intro k v r
    rcases hrec : Node.remove_position (.node lk lv ll lr) .first with ⟨l2, act⟩
    cases act with
    | ret value =>
      obtain ⟨p, hin, hres⟩ := (ihl lk lv lr).1 l2 value hrec
      refine ⟨?_, ?_⟩
      · intro t2 res h
        rw [rp_first_ret k v r hrec] at h
        simp only [Prod.mk.injEq, RemoveAction.ret.injEq] at h
        obtain ⟨rfl, rfl⟩ := h
        refine ⟨p, ?_, hres⟩
        rw [inorder_node, hin]
        simp
      · intro t2 nn h
        rw [rp_first_ret k v r hrec] at h
        simp at h
    | updateNode nn0 =>
      have hin := (ihl lk lv lr).2 l2 nn0 hrec
      refine ⟨?_, ?_⟩
      · intro t2 res h
        rw [rp_first_upd k v r hrec] at h
        simp only [Prod.mk.injEq, RemoveAction.ret.injEq] at h
        obtain ⟨rfl, rfl⟩ := h
        refine ⟨(lk, lv), ?_, rfl⟩
        rw [inorder_node, hin]
        simp
      · intro t2 nn h
        rw [rp_first_upd k v r hrec] at h
        simp at h

theorem rp_last_spec :
    ∀ (r : NodeLink α β) (k : α) (v : β) (l : NodeLink α β),
      (∀ t2 res, Node.remove_position (.node k v l r) .last = (t2, .ret res) →
        ∃ p, inorder (NodeLink.node k v l r) = inorder t2 ++ [p] ∧ res = some p.2) ∧
      (∀ t2 nn, Node.remove_position (.node k v l r) .last = (t2, .updateNode nn) →
        inorder (NodeLink.node k v l r) = inorder nn ++ [(k, v)]) := by
  intro r
  induction r with
  | none =>
    intro k v l
    refine ⟨?_, ?_⟩
    · intro t2 res h
      rw [rp_last_none] at h
      simp at h
    · intro t2 nn h
      rw [rp_last_none] at h
      simp only [Prod.mk.injEq, RemoveAction.updateNode.injEq] at h
      obtain ⟨-, hnn⟩ := h
      subst hnn
      rw [replacement_right_none]
      simp
  | node rk rv rl rr ihl ihr =>
    intro k v l
    rcases hrec : Node.remove_position (.node rk rv rl rr) .last with ⟨r2, act⟩
    cases act with
    | ret value =>
      obtain ⟨p, hin, hres⟩ := (ihr rk rv rl).1 r2 value hrec
      refine ⟨?_, ?_⟩
      · intro t2 res h
        rw [rp_last_ret k v l hrec] at h
        simp only [Prod.mk.injEq, RemoveAction.ret.injEq] at h
        obtain ⟨rfl, rfl⟩ := h
        refine ⟨p, ?_, hres⟩
        rw [inorder_node, hin]
        simp
      · intro t2 nn h
        rw [rp_last_ret k v l hrec] at h
        simp at h
    | updateNode nn0 =>
      have hin := (ihr rk rv rl).2 r2 nn0 hrec
      refine ⟨?_, ?_⟩
      · intro t2 res h
        rw [rp_last_upd k v l hrec] at h
        simp only [Prod.mk.injEq, RemoveAction.ret.injEq] at h
        obtain ⟨rfl, rfl⟩ := h
        refine ⟨(rk, rv), ?_, rfl⟩
        rw [inorder_node, hin]
        simp
      · intro t2 nn h
        rw [rp_last_upd k v l hrec] at h
        simp at h

/-! ### First and last entries -/

theorem first_key_value_eq_head (t : NodeLink α β) :
    Node.first_key_value t = (inorder t).head? := by
  induction t with
  | none => rfl
  | node k v l r ihl ihr =>
    cases l with
    | none => simp [Node.first_key_value]
    | node lk lv ll lr =>
      rw [Node.first_key_value, ihl]
      rcases hhd : (inorder (NodeLink.node lk lv ll lr)).head? with _ | p
      · rw [List.head?_eq_none_iff, inorder_eq_nil_iff] at hhd
        exact absurd hhd (by simp)
      · have heq : inorder (NodeLink.node k v (NodeLink.node lk lv ll lr) r) =
            inorder (NodeLink.node lk lv ll lr) ++ ((k, v) :: inorder r) := by simp
        rw [heq, List.head?_append, hhd]
        simp

theorem last_key_value_eq_getLast (t : NodeLink α β) :
    Node.last_key_value t = (inorder t).getLast? := by
  induction t with
  | none => rfl
  | node k v l r ihl ihr =>
    cases r with
    | none => simp [Node.last_key_value, List.getLast?_concat]
    | node rk rv rl rr =>
      rw [Node.last_key_value, ihr]
      rcases hlast : (inorder (NodeLink.node rk rv rl rr)).getLast? with _ | p
      · rw [List.getLast?_eq_none_iff, inorder_eq_nil_iff] at hlast
        exact absurd hlast (by simp)
      · have heq : inorder (NodeLink.node k v l (NodeLink.node rk rv rl rr)) =
            (inorder l ++ [(k, v)]) ++ inorder (NodeLink.node rk rv rl rr) := by simp
        rw [heq, List.getLast?_append, hlast]
        simp

/-! ### Map-level bookkeeping -/

theorem insert_head [LinearOrder α] (m : BstMap α β) (key : α) (value : β) :
    (m.insert key value).head = (Node.insert m.head key value).1 ∧
    (m.insert key value).len = m.len +
      (match (Node.insert m.head key value).2 with
       | .increment => 1
       | .none => 0) := by
  rcases hm : m.head with _ | ⟨hk, hv, hl, hr⟩
  · constructor <;> simp [BstMap.insert, hm, Node.insert]
  · rcases hins : Node.insert (.node hk hv hl hr) key value with ⟨h2, act⟩
    cases act <;> constructor <;> simp [BstMap.insert, hm, hins]

theorem insert_or_head [LinearOrder α] (m : BstMap α β) (key : α) (value : β)
    (func : β → β) :
    (m.insert_or key value func).head = (Node.insert_or m.head key value func).1 ∧
    (m.insert_or key value func).len = m.len +
      (match (Node.insert_or m.head key value func).2 with
       | .increment => 1
       | .none => 0) := by
  rcases hm : m.head with _ | ⟨hk, hv, hl, hr⟩
  · constructor <;> simp [BstMap.insert_or, hm, Node.insert_or]
  · rcases hins : Node.insert_or (.node hk hv hl hr) key value func with ⟨h2, act⟩
    cases act <;> constructor <;> simp [BstMap.insert_or, hm, hins]

theorem bstmap_remove_spec [LinearOrder α] (m : BstMap α β) (key : α)
    (hbst : BST m.head) :
    inorder (m.remove key).1.head = eraseKey key (inorder m.head) ∧
    (m.remove key).2 = Node.get m.head key ∧
    (m.remove key).1.len =
      (if (Node.get m.head key).isSome then m.len - 1 else m.len) := by
  rcases hm : m.head with _ | ⟨hk, hv, hl, hr⟩
  · refine ⟨?_, ?_, ?_⟩ <;> simp [BstMap.remove, hm, eraseKey, Node.get]
  · rw [hm] at hbst
    rcases hrem : Node.remove (.node hk hv hl hr) key with ⟨t2, act⟩
    have hspec := remove_spec key (.node hk hv hl hr) hbst
    cases act with
    | ret value =>
      obtain ⟨hin, hres⟩ := hspec.1 t2 value hrem
      refine ⟨?_, ?_, ?_⟩ <;> simp [BstMap.remove, hm, hrem, hin, hres]
    | updateNode nn =>
      obtain ⟨hin, v2, l2, r2, heqn⟩ := hspec.2 t2 nn hrem
      injection heqn with hk1 hv1 hl1 hr1
      subst hk1
      refine ⟨?_, ?_, ?_⟩ <;>
        simp [BstMap.remove, hm, hrem, hin, Node.get, compare_eq_iff_eq.mpr rfl]

theorem bstmap_remove_first_spec (m : BstMap α β) (hne : m.head ≠ .none) :
    ∃ p, inorder m.head = p :: inorder (m.remove_first).1.head ∧
      (m.remove_first).2 = some p.2 ∧ (m.remove_first).1.len = m.len - 1 := by
  rcases hm : m.head with _ | ⟨hk, hv, hl, hr⟩
  · exact absurd hm hne
  · rcases hrp : Node.remove_position (.node hk hv hl hr) .first with ⟨t2, act⟩
    cases act with
    | ret value =>
      obtain ⟨p, hin, hres⟩ := (rp_first_spec hl hk hv hr).1 t2 value hrp
      refine ⟨p, ?_, ?_, ?_⟩ <;>
        simp [BstMap.remove_first, BstMap.removePosition, hm, hrp, hin, hres]
    | updateNode nn =>
      have hin := (rp_first_spec hl hk hv hr).2 t2 nn hrp
      refine ⟨(hk, hv), ?_, ?_, ?_⟩ <;>
        simp [BstMap.remove_first, BstMap.removePosition, hm, hrp, hin]

theorem bstmap_remove_last_spec (m : BstMap α β) (hne : m.head ≠ .none) :
    ∃ p, inorder m.head = inorder (m.remove_last).1.head ++ [p] ∧
      (m.remove_last).2 = some p.2 ∧ (m.remove_last).1.len = m.len - 1 := by
  rcases hm : m.head with _ | ⟨hk, hv, hl, hr⟩
  · exact absurd hm hne
  · rcases hrp : Node.remove_position (.node hk hv hl hr) .last with ⟨t2, act⟩
    cases act with
    | ret value =>
      obtain ⟨p, hin, hres⟩ := (rp_last_spec hr hk hv hl).1 t2 value hrp
      refine ⟨p, ?_, ?_, ?_⟩ <;>
        simp [BstMap.remove_last, BstMap.removePosition, hm, hrp, hin, hres]
    | updateNode nn =>
      have hin := (rp_last_spec hr hk hv hl).2 t2 nn hrp
      refine ⟨(hk, hv), ?_, ?_, ?_⟩ <;>
        simp [BstMap.remove_last, BstMap.removePosition, hm, hrp, hin]

theorem head_le_of_pairwise [LinearOrder α] {p : α × β} {rest : List (α × β)}
    (hp : (p :: rest).Pairwise (fun a b : α × β => a.1 < b.1)) :
    ∀ q ∈ p :: rest, p.1 ≤ q.1 := by
  rw [List.pairwise_cons] at hp
  intro q hq
  rcases List.mem_cons.mp hq with rfl | hq
  · exact le_refl _
  · exact le_of_lt (hp.1 q hq)

theorem le_getLast_of_pairwise [LinearOrder α] {p : α × β} {rest : List (α × β)}
    (hp : (rest ++ [p]).Pairwise (fun a b : α × β => a.1 < b.1)) :
    ∀ q ∈ rest ++ [p], q.1 ≤ p.1 := by
  rw [List.pairwise_append] at hp
  intro q hq
  rcases List.mem_append.mp hq with hq | hq
  · exact le_of_lt (hp.2.2 q hq p (by simp))
  · rw [List.mem_singleton.mp hq]

/-! ### insert_or versus insert -/

theorem insert_or_keys_action [LinearOrder α] (t : NodeLink α β) (key : α) (v : β)
    (f : β → β) :
    keys (Node.insert_or t key v f).1 = keys (Node.insert t key v).1 ∧
    (Node.insert_or t key v f).2 = (Node.insert t key v).2 := by
  induction t with
  | none => simp [Node.insert_or, Node.insert]
  | node k kv l r ihl ihr =>
    cases hc : compare key k with
    | gt =>
      rcases h1 : Node.insert_or r key v f with ⟨r2, a2⟩
      rcases h2 : Node.insert r key v with ⟨r3, a3⟩
      rw [h1, h2] at ihr
      simp only [Prod.fst, Prod.snd] at ihr
      simp only [Node.insert_or, Node.insert, hc, h1, h2]
      exact ⟨by simp [ihr.1], ihr.2⟩
    | lt =>
      rcases h1 : Node.insert_or l key v f with ⟨l2, a2⟩
      rcases h2 : Node.insert l key v with ⟨l3, a3⟩
      rw [h1, h2] at ihl
      simp only [Prod.fst, Prod.snd] at ihl
      simp only [Node.insert_or, Node.insert, hc, h1, h2]
      exact ⟨by simp [ihl.1], ihl.2⟩
    | eq =>
      simp [Node.insert_or, Node.insert, hc]

theorem insert_or_absent [LinearOrder α] (t : NodeLink α β) (key : α) (v : β)
    (f : β → β) (h : Node.get t key = Option.none) :
    Node.insert_or t key v f = Node.insert t key v := by
  induction t with
  | none => simp [Node.insert_or, Node.insert]
  | node k kv l r ihl ihr =>
    cases hc : compare key k with
    | gt =>
      have h2 : Node.get r key = Option.none := by simpa [Node.get, hc] using h
      rcases hins : Node.insert r key v with ⟨r2, a⟩
      have heq := ihr h2
      simp only [Node.insert_or, Node.insert, hc, hins, heq]
    | lt =>
      have h2 : Node.get l key = Option.none := by simpa [Node.get, hc] using h
      rcases hins : Node.insert l key v with ⟨l2, a⟩
      have heq := ihl h2
      simp only [Node.insert_or, Node.insert, hc, hins, heq]
    | eq =>
      simp [Node.get, hc] at h

theorem insert_or_present_get [LinearOrder α] (t : NodeLink α β) (key : α) (v : β)
    (f : β → β) {w : β} (h : Node.get t key = some w) :
    Node.get (Node.insert_or t key v f).1 key = some (f w) := by
  induction t with
  | none => simp [Node.get] at h
  | node k kv l r ihl ihr =>
    cases hc : compare key k with
    | gt =>
      have h2 : Node.get r key = some w := by simpa [Node.get, hc] using h
      rcases hio : Node.insert_or r key v f with ⟨r2, a⟩
      have hget := ihr h2
      rw [hio] at hget
      simp only [Node.insert_or, hc, hio]
      simpa [Node.get, hc] using hget
    | lt =>
      have h2 : Node.get l key = some w := by simpa [Node.get, hc] using h
      rcases hio : Node.insert_or l key v f with ⟨l2, a⟩
      have hget := ihl h2
      rw [hio] at hget
      simp only [Node.insert_or, hc, hio]
      simpa [Node.get, hc] using hget
    | eq =>
      have hkv : kv = w := by simpa [Node.get, hc] using h
      subst hkv
      simp [Node.insert_or, hc, Node.get]

/-! ### Preservation of the container invariants -/

theorem length_eraseKey_of_mem [LinearOrder α] {l : List (α × β)}
    (hp : l.Pairwise (fun p q => p.1 < q.1)) {key : α} {v : β} (hm : (key, v) ∈ l) :
    (eraseKey key l).length + 1 = l.length := by
  induction l with
  | nil => simp at hm
  | cons p rest ih =>
    rw [List.pairwise_cons] at hp
    rcases List.mem_cons.mp hm with rfl | hm2
    · rw [eraseKey_cons_self (p := (key, v)) rfl,
        eraseKey_eq_self_of_not_mem (fun q hq => ne_of_gt (hp.1 q hq))]
      simp
    · have hne : p.1 ≠ key := ne_of_lt (hp.1 _ hm2)
      rw [eraseKey_cons_of_ne hne]
      simp only [List.length_cons]
      rw [← ih hp.2 hm2]

theorem wf_new [LinearOrder α] : WF (BstMap.new : BstMap α β) := ⟨trivial, rfl⟩

theorem wf_clear [LinearOrder α] (m : BstMap α β) : WF m.clear := ⟨trivial, rfl⟩

theorem bst_head_insert [LinearOrder α] {m : BstMap α β} (hbst : BST m.head)
    (key : α) (value : β) : BST (m.insert key value).head := by
  rw [(insert_head m key value).1]
  exact bst_insert hbst key value

theorem wf_insert [LinearOrder α] {m : BstMap α β} (h : WF m) (key : α) (value : β) :
    WF (m.insert key value) := by
  obtain ⟨hbst, hlen⟩ := h
  refine ⟨bst_head_insert hbst key value, ?_⟩
  rw [(insert_head m key value).1, (insert_head m key value).2,
    insert_length m.head key value, hlen]

theorem bst_head_insert_or [LinearOrder α] {m : BstMap α β} (hbst : BST m.head)
    (key : α) (value : β) (func : β → β) : BST (m.insert_or key value func).head := by
  rw [(insert_or_head m key value func).1, bst_iff_pairwise,
    (insert_or_keys_action m.head key value func).1, ← bst_iff_pairwise]
  exact bst_insert hbst key value

theorem wf_insert_or [LinearOrder α] {m : BstMap α β} (h : WF m) (key : α)
    (value : β) (func : β → β) : WF (m.insert_or key value func) := by
  obtain ⟨hbst, hlen⟩ := h
  refine ⟨bst_head_insert_or hbst key value func, ?_⟩
  rw [(insert_or_head m key value func).1, (insert_or_head m key value func).2]
  have hlength : (inorder (Node.insert_or m.head key value func).1).length =
      (inorder (Node.insert m.head key value).1).length := by
    have hkeys := congrArg List.length (insert_or_keys_action m.head key value func).1
    simpa [keys] using hkeys
  rw [hlength, (insert_or_keys_action m.head key value func).2,
    insert_length m.head key value, hlen]

theorem bst_head_remove [LinearOrder α] {m : BstMap α β} (hbst : BST m.head)
    (key : α) : BST (m.remove key).1.head := by
  obtain ⟨hin, -, -⟩ := bstmap_remove_spec m key hbst
  rw [bst_iff_pairwise_inorder, hin]
  exact List.Pairwise.sublist (List.filter_sublist _) (bst_iff_pairwise_inorder.mp hbst)

theorem wf_remove [LinearOrder α] {m : BstMap α β} (h : WF m) (key : α) :
    WF (m.remove key).1 := by
  obtain ⟨hbst, hlen⟩ := h
  refine ⟨bst_head_remove hbst key, ?_⟩
  obtain ⟨hin, hres, hl⟩ := bstmap_remove_spec m key hbst
  rw [hl, hin]
  cases hg : Node.get m.head key with
  | none =>
    rw [eraseKey_eq_self_of_not_mem ?_]
    · simp [hg, hlen]
    · intro p hp hpk
      have hmem : (key, p.2) ∈ inorder m.head := by
        rw [← hpk]
        simpa using hp
      have hsome := mem_get hbst hmem
      rw [hg] at hsome
      exact Option.noConfusion hsome
  | some v =>
    have hmem := get_some_mem hg
    have hcount := length_eraseKey_of_mem (bst_iff_pairwise_inorder.mp hbst) hmem
    simp only [hg, Option.isSome_some, if_pos]
    omega

theorem wf_remove_first [LinearOrder α] {m : BstMap α β} (h : WF m) :
    WF m.remove_first.1 := by
  obtain ⟨hbst, hlen⟩ := h
  by_cases hne : m.head = NodeLink.none
  · have heq : m.remove_first = (m, Option.none) := by
      simp [BstMap.remove_first, BstMap.removePosition, hne]
    rw [heq]
    exact ⟨hbst, hlen⟩
  · obtain ⟨p, hin, -, hl⟩ := bstmap_remove_first_spec m hne
    refine ⟨?_, ?_⟩
    · rw [bst_iff_pairwise_inorder]
      have hp := bst_iff_pairwise_inorder.mp hbst
      rw [hin, List.pairwise_cons] at hp
      exact hp.2
    · rw [hl, hlen, hin]
      simp

theorem wf_remove_last [LinearOrder α] {m : BstMap α β} (h : WF m) :
    WF m.remove_last.1 := by
  obtain ⟨hbst, hlen⟩ := h
  by_cases hne : m.head = NodeLink.none
  · have heq : m.remove_last = (m, Option.none) := by
      simp [BstMap.remove_last, BstMap.removePosition, hne]
    rw [heq]
    exact ⟨hbst, hlen⟩
  · obtain ⟨p, hin, -, hl⟩ := bstmap_remove_last_spec m hne
    refine ⟨?_, ?_⟩
    · rw [bst_iff_pairwise_inorder]
      have hp := bst_iff_pairwise_inorder.mp hbst
      rw [hin, List.pairwise_append] at hp
      exact hp.1
    · rw [hl, hlen, hin]
      simp

theorem wf_applyOp [LinearOrder α] {m : BstMap α β} (h : WF m) (op : MapOp α β) :
    WF (m.applyOp op) := by
  cases op with
  | insert k v => exact wf_insert h k v
  | insert_or k v f => exact wf_insert_or h k v f
  | remove k => exact wf_remove h k
  | remove_first => exact wf_remove_first h
  | remove_last => exact wf_remove_last h
  | clear => exact wf_clear m

theorem wf_foldl [LinearOrder α] :
    ∀ (ops : List (MapOp α β)) (m : BstMap α β), WF m →
      WF (ops.foldl BstMap.applyOp m) := by
  intro ops
  induction ops with
  | nil => intro m h; exact h
  | cons op rest ih => intro m h; exact ih _ (wf_applyOp h op)

theorem wf_applyOps [LinearOrder α] (ops : List (MapOp α β)) :
    WF (BstMap.applyOps ops) := wf_foldl ops _ wf_new

theorem wf_applyInsRem [LinearOrder α] {m : BstMap α β} (h : WF m)
    (op : InsRemOp α β) : WF (m.applyInsRem op) := by
  cases op with
  | insert k v => exact wf_insert h k v
  | remove k => exact wf_remove h k

theorem wf_foldl_insrem [LinearOrder α] :
    ∀ (ops : List (InsRemOp α β)) (m : BstMap α β), WF m →
      WF (ops.foldl BstMap.applyInsRem m) := by
  intro ops
  induction ops with
  | nil => intro m h; exact h
  | cons op rest ih => intro m h; exact ih _ (wf_applyInsRem h op)

theorem wf_applyInsRems [LinearOrder α] (ops : List (InsRemOp α β)) :
    WF (BstMap.applyInsRems ops) := wf_foldl_insrem ops _ wf_new

/-! ### Iteration round-trip -/

theorem specSurviving_cons_mem [LinearOrder α] {q : α × β} {rest : List (α × β)}
    (hq : q.1 ∈ rest.map Prod.fst) :
    specSurvivingPairs (q :: rest) = specSurvivingPairs rest := by
  rw [specSurvivingPairs, if_pos]
  rw [List.any_eq_true]
  rcases List.mem_map.mp hq with ⟨p2, hp2, hfst⟩
  exact ⟨p2, hp2, by simp [hfst]⟩

theorem specSurviving_cons_not_mem [LinearOrder α] {q : α × β} {rest : List (α × β)}
    (hq : q.1 ∉ rest.map Prod.fst) :
    specSurvivingPairs (q :: rest) = q :: specSurvivingPairs rest := by
  rw [specSurvivingPairs, if_neg]
  intro hany
  rw [List.any_eq_true] at hany
  rcases hany with ⟨p2, hp2, hfst⟩
  rw [decide_eq_true_eq] at hfst
  exact hq (List.mem_map.mpr ⟨p2, hp2, hfst⟩)

theorem filter_sortedUpsert_mem [LinearOrder α] {S : List α} {k : α} (hk : k ∈ S)
    (v : β) :
    ∀ l : List (α × β),
      (sortedUpsert l k v).filter (fun p => decide (p.1 ∉ S)) =
        l.filter (fun p => decide (p.1 ∉ S)) := by
  intro l
  induction l with
  | nil => simp [sortedUpsert, hk]
  | cons p rest ih =>
    by_cases h1 : k < p.1
    · rw [sortedUpsert, if_pos h1]
      simp [List.filter_cons, hk]
    · by_cases h2 : p.1 < k
      · rw [sortedUpsert, if_neg h1, if_pos h2]
        rw [List.filter_cons, List.filter_cons, ih]
      · have hpk : p.1 = k := le_antisymm (not_lt.mp h1) (not_lt.mp h2)
        rw [sortedUpsert, if_neg h1, if_neg h2]
        simp [List.filter_cons, hk, hpk]

theorem sortedUpsert_perm [LinearOrder α] {l : List (α × β)}
    (hp : l.Pairwise (fun p q => p.1 < q.1)) (k : α) (v : β) :
    (sortedUpsert l k v).Perm ((k, v) :: eraseKey k l) := by
  induction l with
  | nil => simp [sortedUpsert, eraseKey]
  | cons p rest ih =>
    rw [List.pairwise_cons] at hp
    by_cases h1 : k < p.1
    · rw [sortedUpsert, if_pos h1, eraseKey_cons_of_ne (ne_of_gt h1),
        eraseKey_eq_self_of_not_mem
          (fun q hq => ne_of_gt (lt_trans h1 (hp.1 q hq)))]
    · by_cases h2 : p.1 < k
      · rw [sortedUpsert, if_neg h1, if_pos h2, eraseKey_cons_of_ne (ne_of_lt h2)]
        exact (List.Perm.cons p (ih hp.2)).trans (List.Perm.swap (k, v) p _)
      · have hpk : p.1 = k := le_antisymm (not_lt.mp h1) (not_lt.mp h2)
        rw [sortedUpsert, if_neg h1, if_neg h2, eraseKey_cons_self hpk,
          eraseKey_eq_self_of_not_mem
            (fun q hq => ne_of_gt (hpk ▸ hp.1 q hq))]

theorem applyInserts_round_trip [LinearOrder α] :
    ∀ (ops : List (α × β)) (m : BstMap α β), BST m.head →
      (inorder (ops.foldl (fun m2 p => m2.insert p.1 p.2) m).head).Perm
        (specSurvivingPairs ops ++
          (inorder m.head).filter (fun p => decide (p.1 ∉ ops.map Prod.fst))) := by
  intro ops
  induction ops with
  | nil =>
    intro m _
    simp [specSurvivingPairs]
  | cons q rest ih =>
    intro m hbst
    simp only [List.foldl_cons]
    have hbst2 : BST (m.insert q.1 q.2).head := bst_head_insert hbst q.1 q.2
    have ih2 := ih (m.insert q.1 q.2) hbst2
    rw [(insert_head m q.1 q.2).1, insert_inorder hbst q.1 q.2] at ih2
    refine ih2.trans ?_
    by_cases hq : q.1 ∈ rest.map Prod.fst
    · rw [specSurviving_cons_mem hq, filter_sortedUpsert_mem hq]
      have hfe : (inorder m.head).filter
            (fun p => decide (p.1 ∉ rest.map Prod.fst)) =
          (inorder m.head).filter
            (fun p => decide (p.1 ∉ (q :: rest).map Prod.fst)) := by
        apply List.filter_congr
        intro p hp
        by_cases hpq : p.1 = q.1 <;> simp [List.map_cons, hpq, hq]
      rw [hfe]
    · rw [specSurviving_cons_not_mem hq]
      have hsu := sortedUpsert_perm (bst_iff_pairwise_inorder.mp hbst) q.1 q.2
      have hfil := hsu.filter (fun p => decide (p.1 ∉ rest.map Prod.fst))
      rw [List.filter_cons_of_pos (by simpa using hq)] at hfil
      refine (List.Perm.append_left (specSurvivingPairs rest) hfil).trans ?_
      refine List.perm_middle.trans ?_
      have hff : (eraseKey q.1 (inorder m.head)).filter
            (fun p => decide (p.1 ∉ rest.map Prod.fst)) =
          (inorder m.head).filter
            (fun p => decide (p.1 ∉ (q :: rest).map Prod.fst)) := by
        rw [eraseKey, List.filter_filter]
        apply List.filter_congr
        intro p hp
        by_cases hpq : p.1 = q.1 <;> simp [List.map_cons, hpq, hq]
      rw [hff]
      simp

/-! ### Removal of an absent key is the identity -/

theorem remove_absent_id [LinearOrder α] :
    ∀ (t : NodeLink α β) (key : α), Node.get t key = Option.none →
      Node.remove t key = (t, .ret Option.none) := by
  intro t
  induction t with
  | none => intro key _; rfl
  | node k v l r ihl ihr =>
    intro key h
    cases hc : compare key k with
    | eq => simp [Node.get, hc] at h
    | gt =>
      have h2 : Node.get r key = Option.none := by simpa [Node.get, hc] using h
      cases r with
      | none => exact remove_gt_none hc v l
      | node rk rv rl rr => exact remove_gt_ret hc v l (ihr key h2)
    | lt =>
      have h2 : Node.get l key = Option.none := by simpa [Node.get, hc] using h
      cases l with
      | none => exact remove_lt_none hc v r
      | node lk lv ll lr => exact remove_lt_ret hc v r (ihl key h2)

/-! ### The claims -/

/-- C1: the claimed agreement of mutable and immutable lookup fails on the
code: in the map with root key 2 (value 0) and left child key 1 (value 1),
`get(1)` finds the entry but `get_mut(1)` does not, because `Node::get_mut`
routes `Ordering::Less` to `&mut self.right` (src/node.rs line 152).  This
run exhibits the defect on the failing input; `get_mut`'s own documentation
(`Returns None if key is not found`) and the spec's ground-truth immutable
lookup say the key should be found. -/
theorem c1_get_mut_misses_left_subtree :
    (⟨2, .node 2 0 (.node 1 1 .none .none) .none⟩ : BstMap Nat Nat).get 1 = some 1 ∧
    (⟨2, .node 2 0 (.node 1 1 .none .none) .none⟩ : BstMap Nat Nat).get_mut 1 =
      Option.none := by
  constructor <;> decide

/-- C2: every sequence of insert and remove operations applied to the empty
map leaves a tree satisfying the strict BST invariant: below every reachable
node, left-subtree keys are strictly smaller and right-subtree keys strictly
larger; in particular the two-children removal promoting the in-order
successor preserves the invariant. -/
theorem c2_bst_invariant_sequences [LinearOrder α] (ops : List (InsRemOp α β)) :
    BST (BstMap.applyInsRems ops).head :=
  (wf_applyInsRems ops).1

/-- C3: removing a key that is present in a map satisfying the container
invariants returns `Some` of the associated value, leaves the key absent,
decreases the count by exactly one and preserves the BST invariant. -/
theorem c3_remove_present [LinearOrder α] (m : BstMap α β) (key : α) (v : β)
    (hbst : BST m.head) (hlen : m.len = (inorder m.head).length)
    (hget : Node.get m.head key = some v) :
    (m.remove key).2 = some v ∧
    Node.get (m.remove key).1.head key = Option.none ∧
    (m.remove key).1.len + 1 = m.len ∧
    BST (m.remove key).1.head := by
  obtain ⟨hin, hres, hl⟩ := bstmap_remove_spec m key hbst
  have hbst2 : BST (m.remove key).1.head := bst_head_remove hbst key
  refine ⟨by rw [hres, hget], ?_, ?_, hbst2⟩
  · rw [get_eq_none_iff hbst2]
    intro hkmem
    rcases List.mem_map.mp hkmem with ⟨p, hp, hfst⟩
    rw [hin] at hp
    simp only [eraseKey] at hp
    have hne := List.of_mem_filter hp
    rw [decide_eq_true_eq] at hne
    exact hne hfst
  · have hmem := get_some_mem hget
    have hpos : 1 ≤ (inorder m.head).length :=
      List.length_pos.mpr (by intro hnil; rw [hnil] at hmem; simp at hmem)
    rw [hl, hget]
    simp only [Option.isSome_some, if_pos]
    omega

/-- Witness for C3: removing key 1 from the well-formed two-entry map
with root 2 ↦ 20 and left child 1 ↦ 10. -/
theorem c3_remove_present_witness :
    ((⟨2, .node 2 20 (.node 1 10 .none .none) .none⟩ : BstMap Nat Nat).remove 1).2 =
      some 10 ∧
    Node.get ((⟨2, .node 2 20 (.node 1 10 .none .none) .none⟩ :
      BstMap Nat Nat).remove 1).1.head 1 = Option.none ∧
    ((⟨2, .node 2 20 (.node 1 10 .none .none) .none⟩ :
      BstMap Nat Nat).remove 1).1.len + 1 = 2 ∧
    BST ((⟨2, .node 2 20 (.node 1 10 .none .none) .none⟩ :
      BstMap Nat Nat).remove 1).1.head :=
  c3_remove_present _ 1 10 (by decide) (by decide) (by decide)

/-- C4: removing a key that is absent from a map returns `None` (never a
fault) and leaves the map itself completely unchanged. -/
theorem c4_remove_absent [LinearOrder α] (m : BstMap α β) (key : α)
    (hget : Node.get m.head key = Option.none) :
    (m.remove key).2 = Option.none ∧ (m.remove key).1 = m := by
  rcases hm : m.head with _ | ⟨hk, hv, hl, hr⟩
  · constructor <;> simp [BstMap.remove, hm]
  · have hrem := remove_absent_id (.node hk hv hl hr) key (hm ▸ hget)
    refine ⟨?_, ?_⟩
    · simp [BstMap.remove, hm, hrem]
    · simp only [BstMap.remove, hm, hrem, Option.isSome_none, Bool.false_eq_true,
        if_false]
      rw [← hm]

/-- Witness for C4: removing the absent key 3 from the singleton map 5 ↦ 50. -/
theorem c4_remove_absent_witness :
    ((⟨1, .node 5 50 .none .none⟩ : BstMap Nat Nat).remove 3).2 = Option.none ∧
    ((⟨1, .node 5 50 .none .none⟩ : BstMap Nat Nat).remove 3).1 =
      (⟨1, .node 5 50 .none .none⟩ : BstMap Nat Nat) :=
  c4_remove_absent _ 3 (by decide)

/-- C5: after every sequence of mutating operations starting from the empty
map, the stored count equals the number of entries produced by a full
traversal, and the count is zero exactly when the root is absent. -/
theorem c5_count_consistency [LinearOrder α] (ops : List (MapOp α β)) :
    (BstMap.applyOps ops).len = (inorder (BstMap.applyOps ops).head).length ∧
    ((BstMap.applyOps ops).len = 0 ↔ (BstMap.applyOps ops).head = NodeLink.none) := by
  obtain ⟨-, hlen⟩ := wf_applyOps ops
  refine ⟨hlen, ?_⟩
  rw [hlen, List.length_eq_zero, inorder_eq_nil_iff]

/-- C6: on a non-empty map satisfying the BST invariant, `first_key_value`
returns the entry with the minimum key and `last_key_value` the one with the
maximum key, and `remove_first`/`remove_last` remove precisely that entry and
return its value; on the empty map, `first`, `last`, `remove`,
`remove_first` and `remove_last` all report absence and the count is 0. -/
theorem c6_ordered_extremes [LinearOrder α] (m : BstMap α β) :
    (m.head ≠ NodeLink.none → BST m.head →
      (∃ p rest, inorder m.head = p :: rest ∧
        m.first_key_value = some p ∧
        (∀ q ∈ inorder m.head, p.1 ≤ q.1) ∧
        m.remove_first.2 = some p.2 ∧
        inorder m.remove_first.1.head = rest) ∧
      (∃ p rest, inorder m.head = rest ++ [p] ∧
        m.last_key_value = some p ∧
        (∀ q ∈ inorder m.head, q.1 ≤ p.1) ∧
        m.remove_last.2 = some p.2 ∧
        inorder m.remove_last.1.head = rest)) ∧
    ((BstMap.new : BstMap α β).first_key_value = Option.none ∧
      (BstMap.new : BstMap α β).last_key_value = Option.none ∧
      (∀ key : α, ((BstMap.new : BstMap α β).remove key).2 = Option.none) ∧
      (BstMap.new : BstMap α β).remove_first.2 = Option.none ∧
      (BstMap.new : BstMap α β).remove_last.2 = Option.none ∧
      (BstMap.new : BstMap α β).len = 0) := by
  constructor
  · intro hne hbst
    constructor
    · obtain ⟨p, hin, hres, -⟩ := bstmap_remove_first_spec m hne
      refine ⟨p, inorder m.remove_first.1.head, hin, ?_, ?_, hres, rfl⟩
      · rw [BstMap.first_key_value, first_key_value_eq_head, hin]
        rfl
      · have hp := bst_iff_pairwise_inorder.mp hbst
        rw [hin] at hp
        intro q hq
        rw [hin] at hq
        exact head_le_of_pairwise hp q hq
    · obtain ⟨p, hin, hres, -⟩ := bstmap_remove_last_spec m hne
      refine ⟨p, inorder m.remove_last.1.head, hin, ?_, ?_, hres, rfl⟩
      · rw [BstMap.last_key_value, last_key_value_eq_getLast, hin,
          List.getLast?_concat]
      · have hp := bst_iff_pairwise_inorder.mp hbst
        rw [hin] at hp
        intro q hq
        rw [hin] at hq
        exact le_getLast_of_pairwise hp q hq
  · refine ⟨rfl, rfl, ?_, rfl, rfl, rfl⟩
    intro key
    rfl

/-- Witness for C6 at the concrete two-entry map with root 2 ↦ 20 and left
child 1 ↦ 10. -/
theorem c6_ordered_extremes_witness :
    (∃ p rest,
      inorder (⟨2, .node 2 20 (.node 1 10 .none .none) .none⟩ :
        BstMap Nat Nat).head = p :: rest ∧
      (⟨2, .node 2 20 (.node 1 10 .none .none) .none⟩ :
        BstMap Nat Nat).first_key_value = some p ∧
      (∀ q ∈ inorder (⟨2, .node 2 20 (.node 1 10 .none .none) .none⟩ :
        BstMap Nat Nat).head, p.1 ≤ q.1) ∧
      (⟨2, .node 2 20 (.node 1 10 .none .none) .none⟩ :
        BstMap Nat Nat).remove_first.2 = some p.2 ∧
      inorder (⟨2, .node 2 20 (.node 1 10 .none .none) .none⟩ :
        BstMap Nat Nat).remove_first.1.head = rest) ∧
    (∃ p rest,
      inorder (⟨2, .node 2 20 (.node 1 10 .none .none) .none⟩ :
        BstMap Nat Nat).head = rest ++ [p] ∧
      (⟨2, .node 2 20 (.node 1 10 .none .none) .none⟩ :
        BstMap Nat Nat).last_key_value = some p ∧
      (∀ q ∈ inorder (⟨2, .node 2 20 (.node 1 10 .none .none) .none⟩ :
        BstMap Nat Nat).head, q.1 ≤ p.1) ∧
      (⟨2, .node 2 20 (.node 1 10 .none .none) .none⟩ :
        BstMap Nat Nat).remove_last.2 = some p.2 ∧
      inorder (⟨2, .node 2 20 (.node 1 10 .none .none) .none⟩ :
        BstMap Nat Nat).remove_last.1.head = rest) :=
  (c6_ordered_extremes _).1 (by decide) (by decide)

/-- C7: for every sequence of insertions applied to the empty map, a full
run of the consuming iterator produces, as a multiset, exactly the inserted
pairs that were not subsequently overwritten, each exactly once and nothing
else. -/
theorem c7_iteration_round_trip [LinearOrder α] (ops : List (α × β)) :
    ((BstMap.applyInserts ops).into_iter : Multiset (α × β)) =
      (specSurvivingPairs ops : Multiset (α × β)) := by
  rw [Multiset.coe_eq_coe]
  refine (into_iter_perm_inorder (BstMap.applyInserts ops)).trans ?_
  have h2 := applyInserts_round_trip ops BstMap.new trivial
  simpa [BstMap.applyInserts, BstMap.new] using h2

/-- C8: inserting a key that is already present in a map satisfying the BST
invariant overwrites the stored value in place: afterwards the map holds
exactly one entry for that key, it carries the newly inserted value, and the
element count is unchanged. -/
theorem c8_insert_overwrites [LinearOrder α] (m : BstMap α β) (key : α) (v w : β)
    (hbst : BST m.head) (hget : Node.get m.head key = some w) :
    Node.get (m.insert key v).head key = some v ∧
    (inorder (m.insert key v).head).countP (fun p => decide (p.1 = key)) = 1 ∧
    (m.insert key v).len = m.len ∧
    BST (m.insert key v).head := by
  refine ⟨?_, ?_, ?_, bst_head_insert hbst key v⟩
  · rw [(insert_head m key v).1]
    exact insert_get_self m.head key v
  · have hbst2 : BST (m.insert key v).head := bst_head_insert hbst key v
    have hp2 := bst_iff_pairwise_inorder.mp hbst2
    have hmem : (key, v) ∈ inorder (m.insert key v).head := by
      rw [(insert_head m key v).1, insert_inorder hbst]
      exact self_mem_sortedUpsert _ key v
    exact countP_eq_one_of_pairwise hp2 hmem
  · rw [(insert_head m key v).2, insert_action_eq, hget]
    simp

/-- Witness for C8: re-inserting key 4 with value 9 over the singleton map
4 ↦ 7. -/
theorem c8_insert_overwrites_witness :
    Node.get ((⟨1, .node 4 7 .none .none⟩ : BstMap Nat Nat).insert 4 9).head 4 =
      some 9 ∧
    (inorder ((⟨1, .node 4 7 .none .none⟩ :
      BstMap Nat Nat).insert 4 9).head).countP (fun p => decide (p.1 = 4)) = 1 ∧
    ((⟨1, .node 4 7 .none .none⟩ : BstMap Nat Nat).insert 4 9).len = 1 ∧
    BST ((⟨1, .node 4 7 .none .none⟩ : BstMap Nat Nat).insert 4 9).head :=
  c8_insert_overwrites _ 4 9 7 (by decide) (by decide)

/-- C9: on an absent key, `insert_or` behaves exactly like `insert`; on a
present key it applies the update function to the stored value (the supplied
value is not applied) and leaves the element count unchanged. -/
theorem c9_insert_or_update [LinearOrder α] (m : BstMap α β) (key : α) (v : β)
    (f : β → β) :
    (Node.get m.head key = Option.none → m.insert_or key v f = m.insert key v) ∧
    (∀ w, Node.get m.head key = some w →
      Node.get (m.insert_or key v f).head key = some (f w) ∧
      (m.insert_or key v f).len = m.len) := by
  refine ⟨?_, ?_⟩
  · intro h
    have hio := insert_or_absent m.head key v f h
    rcases hm : m.head with _ | ⟨hk, hv, hl, hr⟩
    · simp [BstMap.insert_or, BstMap.insert, hm]
    · rw [hm] at hio
      rcases hins : Node.insert (.node hk hv hl hr) key v with ⟨h2, act⟩
      rw [hins] at hio
      cases act <;> simp [BstMap.insert_or, BstMap.insert, hm, hins, hio]
  · intro w hw
    constructor
    · rw [(insert_or_head m key v f).1]
      exact insert_or_present_get m.head key v f hw
    · rw [(insert_or_head m key v f).2, (insert_or_keys_action m.head key v f).2,
        insert_action_eq, hw]
      simp

/-- Witness for C9: `insert_or` of key 4 with update function `+1` over the
singleton map 4 ↦ 7 yields value 8 and count 1. -/
theorem c9_insert_or_update_witness :
    Node.get ((⟨1, .node 4 7 .none .none⟩ : BstMap Nat Nat).insert_or 4 9
      (fun x => x + 1)).head 4 = some 8 ∧
    ((⟨1, .node 4 7 .none .none⟩ : BstMap Nat Nat).insert_or 4 9
      (fun x => x + 1)).len = 1 :=
  (c9_insert_or_update _ 4 9 _).2 7 (by decide)

/-- C10: requesting the structural dump of the empty map hits the
`self.head.as_ref().unwrap()` panic (modelled as producing no output), while
every map with a present root is formatted successfully: the formatter is
total only on non-empty maps. -/
theorem c10_display_empty_panics :
    (BstMap.new : BstMap Nat Nat).fmt = Option.none ∧
    ∀ m : BstMap Nat Nat, m.head ≠ NodeLink.none → (BstMap.fmt m).isSome = true := by
  refine ⟨rfl, ?_⟩
  intro m hne
  rcases hm : m.head with _ | ⟨hk, hv, hl, hr⟩
  · exact absurd hm hne
  · simp [BstMap.fmt, hm]

/-- Witness for C10: the singleton map 4 ↦ 7 is formatted successfully. -/
theorem c10_display_empty_panics_witness :
    (BstMap.fmt (⟨1, .node 4 7 .none .none⟩ : BstMap Nat Nat)).isSome = true :=
  c10_display_empty_panics.2 _ (by decide)

end Bstmap
